import Mathlib

/-!
# Verification of the sequencer strip-effect compositing engine

Shallow embedding of `source/blender/sequencer/intern/effects.cc` (the
strip-effect engine: buffer-format promotion, cross effect, blend-mode
application, effect registry dispatch, glow blur kernel, jump-flooding
outline passes, separable gaussian blur, and text word-wrapping), together
with theorems settling the frozen specification claims.

Modelling conventions:
* `float` arithmetic is modelled by exact rational arithmetic (`ℚ`);
  float constants such as `M_PI` are taken at their literal decimal value.
* `uchar` pixel channels are `Fin 256`; conversion from a wider integer to
  `uchar` reduces modulo 256 (the C unsigned conversion).
* C `int(...)` conversion from a float truncates toward zero (`c_int`).
* C `>> k` on the non-negative values arising here equals division by `2^k`;
  we use integer division by `2 ^ k` (floor division, which agrees with the
  arithmetic shift of the common implementations also for negatives).
* Images are flattened pixel lists (the source walks `y`/`x` loops over a
  contiguous RGBA buffer) or coordinate-indexed functions where the
  algorithm is 2-D (jump flooding, gaussian blur).
-/

/- ------------------------------------------------------------------ -/
/- Definitions                                                         -/
/- ------------------------------------------------------------------ -/
/-- C `int(q)` conversion of a float value: truncation toward zero. -/
def c_int (q : ℚ) : ℤ := if 0 ≤ q then ⌊q⌋ else ⌈q⌉
/-- C conversion of an integer value to `uchar`: reduction modulo 256. -/
def toByte (n : ℤ) : Fin 256 :=
  ⟨(n % 256).toNat, by
    have h1 : 0 ≤ n % 256 := Int.emod_nonneg n (by norm_num)
    have h2 : n % 256 < 256 := Int.emod_lt_of_pos n (by norm_num)
    omega⟩
/-- An 8-bit RGBA pixel (`uchar` quadruple). -/
structure PixByte where
  r : Fin 256
  g : Fin 256
  b : Fin 256
  a : Fin 256
deriving DecidableEq, Repr
/-- A float RGBA pixel. -/
structure PixFloat where
  r : ℚ
  g : ℚ
  b : ℚ
  a : ℚ
deriving DecidableEq, Repr
/-- Which pixel buffers an `ImBuf` carries (`byte_buffer.data`,
`float_buffer.data` non-null). -/
structure ImBufFmt where
  hasByte : Bool
  hasFloat : Bool
deriving DecidableEq, Repr, Fintype
/-- `ibuf && ibuf->float_buffer.data` for an optional input. -/
def imbuf_has_float : Option ImBufFmt → Bool
  | none => false
  | some b => b.hasFloat
/-- Buffer allocated with `IB_rect`: byte rect only. -/
def alloc_byte_imbuf : ImBufFmt := ⟨true, false⟩
/-- Buffer allocated with `IB_rectfloat`: float rect only. -/
def alloc_float_imbuf : ImBufFmt := ⟨false, true⟩
/-- Models the external `seq_imbuf_to_sequencer_space(scene, ibuf, true)`:
converts the buffer into sequencer float working space, so the buffer has
float data afterwards. -/
def seq_imbuf_to_sequencer_space (b : ImBufFmt) : ImBufFmt :=
  { b with hasFloat := true }
/-- Models the external `IMB_rect_from_float(ibuf)`: creates the byte rect
from the float rect, so the buffer has byte data afterwards. -/
def IMB_rect_from_float (b : ImBufFmt) : ImBufFmt :=
  { b with hasByte := true }
/-- The float-output branch of `prepare_effect_imbufs`: an input lacking a
float buffer is converted to sequencer float space. -/
def promote_to_float : Option ImBufFmt → Option ImBufFmt
  | none => none
  | some b => some (if b.hasFloat then b else seq_imbuf_to_sequencer_space b)
/-- The byte-output branch of `prepare_effect_imbufs`: an input lacking a
byte buffer gets its byte rect built from the float rect. -/
def promote_to_byte : Option ImBufFmt → Option ImBufFmt
  | none => none
  | some b => some (if b.hasByte then b else IMB_rect_from_float b)
/-- `prepare_effect_imbufs(context, ibuf1, ibuf2)`, restricted to the
buffer-format bookkeeping: chooses the output allocation format and
converts the inputs to the output's representation. Returns the two
(possibly converted) inputs and the allocated output. -/
def prepare_effect_imbufs (i1 i2 : Option ImBufFmt) :
    Option ImBufFmt × Option ImBufFmt × ImBufFmt :=
  let out :=
    if i1.isNone && i2.isNone then alloc_byte_imbuf
    else if imbuf_has_float i1 || imbuf_has_float i2 then alloc_float_imbuf
    else alloc_byte_imbuf
  if out.hasFloat then (promote_to_float i1, promote_to_float i2, out)
  else (promote_to_byte i1, promote_to_byte i2, out)
/-- A present input shares the output's chosen representation. -/
def shares_rep (i : Option ImBufFmt) (out : ImBufFmt) : Bool :=
  match i with
  | none => true
  | some b => if out.hasFloat then b.hasFloat else b.hasByte
/-- Per-pixel body of `do_cross_effect_byte`. -/
def cross_pix_byte (temp_fac temp_mfac : ℤ) (p1 p2 : PixByte) : PixByte :=
  ⟨toByte ((temp_mfac * p1.r.val + temp_fac * p2.r.val) / 2 ^ 8),
   toByte ((temp_mfac * p1.g.val + temp_fac * p2.g.val) / 2 ^ 8),
   toByte ((temp_mfac * p1.b.val + temp_fac * p2.b.val) / 2 ^ 8),
   toByte ((temp_mfac * p1.a.val + temp_fac * p2.a.val) / 2 ^ 8)⟩
/-- `do_cross_effect_byte(fac, x, y, rect1, rect2, out)` over the flattened
pixel list (the source iterates the `y`/`x` double loop over `x*y`
contiguous pixels). -/
def do_cross_effect_byte (fac : ℚ) (rect1 rect2 : List PixByte) :
    List PixByte :=
  let temp_fac := c_int (256 * fac)
  let temp_mfac := 256 - temp_fac
  List.zipWith (cross_pix_byte temp_fac temp_mfac) rect1 rect2
/-- Per-pixel body of `do_cross_effect_float`. -/
def cross_pix_float (fac mfac : ℚ) (p1 p2 : PixFloat) : PixFloat :=
  ⟨mfac * p1.r + fac * p2.r,
   mfac * p1.g + fac * p2.g,
   mfac * p1.b + fac * p2.b,
   mfac * p1.a + fac * p2.a⟩
/-- `do_cross_effect_float(fac, x, y, rect1, rect2, out)` over the flattened
pixel list. -/
def do_cross_effect_float (fac : ℚ) (rect1 rect2 : List PixFloat) :
    List PixFloat :=
  let mfac := 1 - fac
  List.zipWith (cross_pix_float fac mfac) rect1 rect2
/-- The `StripEarlyOut` policy values. -/
inductive StripEarlyOut where
  | UseInput1
  | UseInput2
  | NoInput
  | DoEffect
deriving DecidableEq, Repr
/-- `early_out_fade(seq, fac)`. -/
def early_out_fade (fac : ℚ) : StripEarlyOut :=
  if fac = 0 then .UseInput1
  else if fac = 1 then .UseInput2
  else .DoEffect
/-- The byte instantiation of the alpha scaling `src2[3] = T(achannel * fac)`
inside `apply_blend_function`: float product truncated into a `uchar`. -/
def scale_alpha_byte (achannel : Fin 256) (fac : ℚ) : Fin 256 :=
  toByte (c_int ((achannel.val : ℚ) * fac))
/-- `apply_blend_function<uchar>(fac, w, h, src1, src2, dst, blend_function)`
over flattened pixel lists. Per pixel the source saves `src2`'s alpha,
temporarily scales it by `fac`, calls the per-mode blend function, restores
the saved alpha and overwrites the destination alpha with `src1`'s alpha.
Returns the destination pixels together with the final state of the `src2`
buffer (the source mutates `src2` in place). -/
def apply_blend_function_byte (fac : ℚ)
    (blend_function : PixByte → PixByte → PixByte) :
    List PixByte → List PixByte → List PixByte × List PixByte
  | p1 :: t1, p2 :: t2 =>
      let achannel := p2.a
      let p2s := { p2 with a := scale_alpha_byte achannel fac }
      let d0 := blend_function p1 p2s
      let d := { d0 with a := p1.a }
      let p2r := { p2s with a := achannel }
      let rest := apply_blend_function_byte fac blend_function t1 t2
      (d :: rest.1, p2r :: rest.2)
  | _, l2 => ([], l2)
/-- The float instantiation of the alpha scaling `src2[3] = T(achannel * fac)`
inside `apply_blend_function`. -/
def scale_alpha_float (achannel fac : ℚ) : ℚ := achannel * fac
/-- `apply_blend_function<float>` over flattened pixel lists. -/
def apply_blend_function_float (fac : ℚ)
    (blend_function : PixFloat → PixFloat → PixFloat) :
    List PixFloat → List PixFloat → List PixFloat × List PixFloat
  | p1 :: t1, p2 :: t2 =>
      let achannel := p2.a
      let p2s := { p2 with a := scale_alpha_float achannel fac }
      let d0 := blend_function p1 p2s
      let d := { d0 with a := p1.a }
      let p2r := { p2s with a := achannel }
      let rest := apply_blend_function_float fac blend_function t1 t2
      (d :: rest.1, p2r :: rest.2)
  | _, l2 => ([], l2)
/-- Per-pixel body of `do_add_effect_byte`. -/
def add_pix_byte (temp_fac : ℤ) (p1 p2 : PixByte) : PixByte :=
  let temp_fac2 := temp_fac * p2.a.val
  ⟨toByte (min (p1.r.val + temp_fac2 * p2.r.val / 2 ^ 16) 255),
   toByte (min (p1.g.val + temp_fac2 * p2.g.val / 2 ^ 16) 255),
   toByte (min (p1.b.val + temp_fac2 * p2.b.val / 2 ^ 16) 255),
   p1.a⟩
/-- `do_add_effect_byte(fac, x, y, rect1, rect2, out)` over flattened
pixel lists. -/
def do_add_effect_byte (fac : ℚ) (rect1 rect2 : List PixByte) :
    List PixByte :=
  List.zipWith (add_pix_byte (c_int (256 * fac))) rect1 rect2
/-- Per-pixel body of `do_add_effect_float`. -/
def add_pix_float (fac : ℚ) (p1 p2 : PixFloat) : PixFloat :=
  let temp_fac := (1 - p1.a * (1 - fac)) * p2.a
  ⟨p1.r + temp_fac * p2.r, p1.g + temp_fac * p2.g, p1.b + temp_fac * p2.b,
   p1.a⟩
/-- `do_add_effect_float(fac, x, y, rect1, rect2, out)` over flattened
pixel lists. -/
def do_add_effect_float (fac : ℚ) (rect1 rect2 : List PixFloat) :
    List PixFloat :=
  List.zipWith (add_pix_float fac) rect1 rect2
/-- Per-pixel body of `do_sub_effect_byte`. -/
def sub_pix_byte (temp_fac : ℤ) (p1 p2 : PixByte) : PixByte :=
  let temp_fac2 := temp_fac * p2.a.val
  ⟨toByte (max (p1.r.val - temp_fac2 * p2.r.val / 2 ^ 16) 0),
   toByte (max (p1.g.val - temp_fac2 * p2.g.val / 2 ^ 16) 0),
   toByte (max (p1.b.val - temp_fac2 * p2.b.val / 2 ^ 16) 0),
   p1.a⟩
/-- `do_sub_effect_byte(fac, x, y, rect1, rect2, out)` over flattened
pixel lists. -/
def do_sub_effect_byte (fac : ℚ) (rect1 rect2 : List PixByte) :
    List PixByte :=
  List.zipWith (sub_pix_byte (c_int (256 * fac))) rect1 rect2
/-- Per-pixel body of `do_sub_effect_float` (`mfac = 1 - fac`). -/
def sub_pix_float (fac : ℚ) (p1 p2 : PixFloat) : PixFloat :=
  let temp_fac := (1 - p1.a * (1 - fac)) * p2.a
  ⟨max (p1.r - temp_fac * p2.r) 0, max (p1.g - temp_fac * p2.g) 0,
   max (p1.b - temp_fac * p2.b) 0, p1.a⟩
/-- `do_sub_effect_float(fac, x, y, rect1, rect2, out)` over flattened
pixel lists. -/
def do_sub_effect_float (fac : ℚ) (rect1 rect2 : List PixFloat) :
    List PixFloat :=
  List.zipWith (sub_pix_float fac) rect1 rect2
/-- The alpha channels of a byte pixel list. -/
def alphasB (l : List PixByte) : List (Fin 256) := l.map (fun p => p.a)
/-- The alpha channels of a float pixel list. -/
def alphasF (l : List PixFloat) : List ℚ := l.map (fun p => p.a)
/-- The effect-type identifiers handled by the `get_sequence_effect_impl`
switch. Every identifier that matches no `case` label takes the default
path; the switch treats all of them identically, so they are represented by
the single parameterised constructor `unregistered`. -/
inductive SeqType where
  | cross
  | gamcross
  | add
  | sub
  | mul
  | screen
  | overlay
  | color_burn
  | linear_burn
  | darken
  | lighten
  | dodge
  | soft_light
  | hard_light
  | pin_light
  | lin_light
  | vivid_light
  | blend_color
  | hue
  | saturation
  | value
  | difference
  | exclusion
  | colormix
  | alphaover
  | overdrop
  | alphaunder
  | wipe
  | glow
  | transform
  | speed
  | color
  | multicam
  | adjustment
  | gaussian_blur
  | text
  | unregistered (code : ℕ)
deriving DecidableEq, Repr
/-- The whole-image executors (`rval.execute` candidates). -/
inductive ExecKind where
  | do_wipe_effect
  | do_glow_effect
  | do_speed_effect
  | do_solid_color
  | do_multicam
  | do_adjustment
  | do_gaussian_blur_effect
  | do_text_effect
deriving DecidableEq, Repr
/-- The row-tiled executors (`rval.execute_slice` candidates). -/
inductive SliceKind where
  | do_cross_effect
  | do_gammacross_effect
  | do_add_effect
  | do_sub_effect
  | do_mul_effect
  | do_blend_mode_effect
  | do_colormix_effect
  | do_alphaover_effect
  | do_overdrop_effect
  | do_alphaunder_effect
  | do_transform_effect
deriving DecidableEq, Repr
/-- The `init` callbacks. -/
inductive InitKind where
  | init_noop
  | init_alpha_over_or_under
  | init_colormix_effect
  | init_wipe_effect
  | init_glow_effect
  | init_transform_effect
  | init_speed_effect
  | init_solid_color
  | init_gaussian_blur_effect
  | init_text_effect
deriving DecidableEq, Repr
/-- The `load` callbacks. -/
inductive LoadKind where
  | load_noop
  | load_speed_effect
  | load_text_effect
deriving DecidableEq, Repr
/-- The `free` callbacks. -/
inductive FreeKind where
  | free_noop
  | free_effect_default
  | free_wipe_effect
  | free_glow_effect
  | free_transform_effect
  | free_speed_effect
  | free_solid_color
  | free_gaussian_blur_effect
  | free_text_effect
deriving DecidableEq, Repr
/-- The `copy` callbacks (default is the null pointer). -/
inductive CopyKind where
  | copy_effect_default
  | copy_wipe_effect
  | copy_glow_effect
  | copy_transform_effect
  | copy_speed_effect
  | copy_solid_color
  | copy_gaussian_blur_effect
  | copy_text_effect
deriving DecidableEq, Repr
/-- The `early_out` callbacks. -/
inductive EarlyOutKind where
  | noop
  | fade
  | mul_input2
  | mul_input1
  | speed
  | color
  | multicam
  | adjustment
  | gaussian_blur
  | text
deriving DecidableEq, Repr
/-- The `get_default_fac` callbacks. -/
inductive FacKind where
  | noop
  | fade
deriving DecidableEq, Repr
/-- `SeqEffectHandle`: the descriptor filled in by
`get_sequence_effect_impl`. Function-pointer fields are represented by the
name of the assigned callback (`Option` when the default is the null
pointer); `num_inputs` holds the constant returned by the assigned
`num_inputs_*` callback (`num_inputs_default` returns 2, wipe / transform /
glow / speed / `gaussian_blur` return 1, color / multicam / adjustment /
text return 0); `init_execution` is always set to the non-null
`init_execution` function. -/
structure SeqEffectHandle where
  multithreaded : Bool
  supports_mask : Bool
  init : InitKind
  num_inputs : ℕ
  load : LoadKind
  free : FreeKind
  early_out : EarlyOutKind
  get_default_fac : FacKind
  execute : Option ExecKind
  init_execution : Bool
  execute_slice : Option SliceKind
  copy : Option CopyKind
deriving DecidableEq, Repr
/-- The default handle built at the top of `get_sequence_effect_impl`
before the switch. -/
def default_effect_handle : SeqEffectHandle :=
  { multithreaded := false
    supports_mask := false
    init := .init_noop
    num_inputs := 2
    load := .load_noop
    free := .free_noop
    early_out := .noop
    get_default_fac := .noop
    execute := none
    init_execution := true
    execute_slice := none
    copy := none }
/-- `get_sequence_effect_impl(seq_type)`. -/
def get_sequence_effect_impl (t : SeqType) : SeqEffectHandle :=
  let rval := default_effect_handle
  match t with
  | .cross =>
      { rval with multithreaded := true, execute_slice := some .do_cross_effect,
                  early_out := .fade, get_default_fac := .fade }
  | .gamcross =>
      { rval with multithreaded := true, early_out := .fade,
                  get_default_fac := .fade,
                  execute_slice := some .do_gammacross_effect }
  | .add =>
      { rval with multithreaded := true, execute_slice := some .do_add_effect,
                  early_out := .mul_input2 }
  | .sub =>
      { rval with multithreaded := true, execute_slice := some .do_sub_effect,
                  early_out := .mul_input2 }
  | .mul =>
      { rval with multithreaded := true, execute_slice := some .do_mul_effect,
                  early_out := .mul_input2 }
  | .screen | .overlay | .color_burn | .linear_burn | .darken | .lighten
  | .dodge | .soft_light | .hard_light | .pin_light | .lin_light
  | .vivid_light | .blend_color | .hue | .saturation | .value | .difference
  | .exclusion =>
      { rval with multithreaded := true,
                  execute_slice := some .do_blend_mode_effect,
                  early_out := .mul_input2 }
  | .colormix =>
      { rval with multithreaded := true, init := .init_colormix_effect,
                  free := .free_effect_default,
                  copy := some .copy_effect_default,
                  execute_slice := some .do_colormix_effect,
                  early_out := .mul_input2 }
  | .alphaover =>
      { rval with multithreaded := true, init := .init_alpha_over_or_under,
                  execute_slice := some .do_alphaover_effect,
                  early_out := .mul_input1 }
  | .overdrop =>
      { rval with multithreaded := true,
                  execute_slice := some .do_overdrop_effect }
  | .alphaunder =>
      { rval with multithreaded := true, init := .init_alpha_over_or_under,
                  execute_slice := some .do_alphaunder_effect }
  | .wipe =>
      { rval with init := .init_wipe_effect, num_inputs := 2,
                  free := .free_wipe_effect, copy := some .copy_wipe_effect,
                  early_out := .fade, get_default_fac := .fade,
                  execute := some .do_wipe_effect }
  | .glow =>
      { rval with init := .init_glow_effect, num_inputs := 1,
                  free := .free_glow_effect, copy := some .copy_glow_effect,
                  execute := some .do_glow_effect }
  | .transform =>
      { rval with multithreaded := true, init := .init_transform_effect,
                  num_inputs := 1, free := .free_transform_effect,
                  copy := some .copy_transform_effect,
                  execute_slice := some .do_transform_effect }
  | .speed =>
      { rval with init := .init_speed_effect, num_inputs := 1,
                  load := .load_speed_effect, free := .free_speed_effect,
                  copy := some .copy_speed_effect,
                  execute := some .do_speed_effect, early_out := .speed }
  | .color =>
      { rval with init := .init_solid_color, num_inputs := 0,
                  early_out := .color, free := .free_solid_color,
                  copy := some .copy_solid_color,
                  execute := some .do_solid_color }
  | .multicam =>
      { rval with num_inputs := 0, early_out := .multicam,
                  execute := some .do_multicam }
  | .adjustment =>
      { rval with supports_mask := true, num_inputs := 0,
                  early_out := .adjustment, execute := some .do_adjustment }
  | .gaussian_blur =>
      { rval with init := .init_gaussian_blur_effect, num_inputs := 1,
                  free := .free_gaussian_blur_effect,
                  copy := some .copy_gaussian_blur_effect,
                  early_out := .gaussian_blur,
                  execute := some .do_gaussian_blur_effect }
  | .text =>
      { rval with num_inputs := 0, init := .init_text_effect,
                  free := .free_text_effect, load := .load_text_effect,
                  copy := some .copy_text_effect, early_out := .text,
                  execute := some .do_text_effect }
  | .unregistered _ => rval
/-- `SEQ_effect_get_num_inputs(seq_type)`. -/
def SEQ_effect_get_num_inputs (t : SeqType) : ℕ :=
  let rval := get_sequence_effect_impl t
  let count := rval.num_inputs
  if rval.execute.isSome || (rval.execute_slice.isSome && rval.init_execution)
  then count
  else 0
/-- The C `M_PI` double constant at its literal decimal value. -/
def M_PI : ℚ := 3.14159265358979323846
/-- `halfWidth = int((quality + 1) * blur)` in `glow_blur_bitmap`. -/
def glow_halfWidth (blur : ℚ) (quality : ℕ) : ℕ :=
  (c_int (((quality : ℚ) + 1) * blur)).toNat
/-- `k = -1.0f / (2.0f * float(M_PI) * blur * blur)` in
`glow_blur_bitmap`. -/
def glow_k (blur : ℚ) : ℚ := -1 / (2 * M_PI * blur * blur)
/-- `weight = exp(k * (ix * ix))`; the external `exp` is the abstract
parameter `e`. -/
def glow_weight (e : ℚ → ℚ) (blur : ℚ) (ix : ℕ) : ℚ :=
  e (glow_k blur * (ix * ix))
/-- State of the `filter` array of `glow_blur_bitmap` after the first `n`
iterations of the fill loop `for (ix = 0; ix < halfWidth; ix++)
{ weight = exp(k*ix*ix); filter[halfWidth - ix] = weight;
  filter[halfWidth + ix] = weight; }`. -/
def glow_fill (w : ℕ → ℚ) (h : ℕ) : ℕ → (ℕ → ℚ) → (ℕ → ℚ)
  | 0, f => f
  | n + 1, f =>
      Function.update (Function.update (glow_fill w h n f) (h - n) (w n))
        (h + n) (w n)
/-- The un-normalised `filter` array of `glow_blur_bitmap` (size
`2 * halfWidth`): the fill loop followed by `filter[0] = weight`, where
`weight` holds the last loop value `exp(k * (halfWidth-1)^2)`. -/
def glow_filter (e : ℚ → ℚ) (blur : ℚ) (h : ℕ) : ℕ → ℚ :=
  Function.update (glow_fill (glow_weight e blur) h h (fun _ => 0)) 0
    (glow_weight e blur (h - 1))
/-- `fval`, the sum of the `filter` entries. -/
def glow_filter_sum (e : ℚ → ℚ) (blur : ℚ) (h : ℕ) : ℚ :=
  ∑ j ∈ Finset.range (2 * h), glow_filter e blur h j
/-- The normalised kernel: `filter[ix] /= fval`. -/
def glow_filter_normalized (e : ℚ → ℚ) (blur : ℚ) (h : ℕ) (j : ℕ) : ℚ :=
  glow_filter e blur h j / glow_filter_sum e blur h
/-- The kernel value the specification claims, at offset `i`:
`exp(-i² / (2 · radius²))` (with the external `exp` abstracted by `e`). -/
def spec_glow_kernel (e : ℚ → ℚ) (blur : ℚ) (i : ℕ) : ℚ :=
  e (-((i : ℚ) * i) / (2 * blur * blur))
/-- `is_power_of_2_i(n) = ((n & (n - 1)) == 0)` (BLI math; the declaration
is external to the excerpt, body per its BLI definition). -/
def is_power_of_2_i (n : ℕ) : Bool := (n &&& (n - 1)) == 0
/-- The `do { n = n & (n - 1); } while (!is_power_of_2_i(n)); return n * 2;`
loop of `power_of_2_max_i`. -/
def pow2max_loop (n : ℕ) : ℕ :=
  if h : is_power_of_2_i (n &&& (n - 1)) then (n &&& (n - 1)) * 2
  else pow2max_loop (n &&& (n - 1))
termination_by n
decreasing_by
  have h1 : n &&& (n - 1) ≤ n - 1 := Nat.and_le_right
  have h2 : n &&& (n - 1) ≠ 0 := by
    intro h0
    rw [h0] at h
    exact h (by decide)
  omega
/-- `power_of_2_max_i(n)` (BLI math): returns `n` when `n` is a power of
two, otherwise rounds up to the next power of two by clearing low bits
until one remains and doubling. -/
def power_of_2_max_i (n : ℕ) : ℕ :=
  if is_power_of_2_i n then n else pow2max_loop n
/-- The step sizes consumed by the `while (step_size != 0)` loop of
`draw_text_outline`, starting from a given step: halve until zero. -/
def halving_steps : ℕ → List ℕ
  | 0 => []
  | s + 1 => (s + 1) :: halving_steps ((s + 1) / 2)
/-- The step sizes of all `jump_flooding_pass` invocations made by
`draw_text_outline` for a given outline width: one initial pass with step 1
(line `jump_flooding_pass(boundary, initial_flooded_result, …, 1)`), then
the loop from `step_size = power_of_2_max_i(outline_width) / 2` halving
down to 1. -/
def jfa_pass_steps (outline_width : ℕ) : List ℕ :=
  1 :: halving_steps (power_of_2_max_i outline_width / 2)
/-- Modelled from the spec: "the largest power-of-two ≤ half the desired
outline width". -/
def spec_largest_pow2_le (n : ℕ) : ℕ := if n = 0 then 0 else 2 ^ Nat.log 2 n
/-- Modelled from the spec: the claimed pass sequence — start at the
largest power of two ≤ half the outline width and halve down to 1 (no
additional initial pass). -/
def spec_jfa_steps (outline_width : ℕ) : List ℕ :=
  halving_steps (spec_largest_pow2_le (outline_width / 2))
/-- `JFACoord` (pair of `uint16` texel coordinates). -/
structure JFACoord where
  x : ℕ
  y : ℕ
deriving DecidableEq, Repr
/-- `JFA_INVALID = 0xFFFF`. -/
def JFA_INVALID : ℕ := 65535
/-- The invalid sentinel coordinate `{JFA_INVALID, JFA_INVALID}`. -/
def jfa_invalid_coord : JFACoord := ⟨JFA_INVALID, JFA_INVALID⟩
/-- `math::distance_squared(float2(a), float2(b))` on integer coordinates
(exact; the float computation is exact for image-sized coordinates). -/
def dist_sq (a b : ℤ × ℤ) : ℤ := (a.1 - b.1) ^ 2 + (a.2 - b.2) ^ 2
/-- The nine `(dy, dx)` sample offsets of one jump-flooding step, in the
loop order of the source (`dy` outer, from `-step` to `step` in `step`
increments; `dx` inner). -/
def jfa_offsets (step : ℤ) : List (ℤ × ℤ) :=
  [(-step, -step), (-step, 0), (-step, step),
   (0, -step), (0, 0), (0, step),
   (step, -step), (step, 0), (step, step)]
/-- One sample of the loop in `jump_flooding_pass`: `none` when the
sampled position is outside the image (`continue`) or its stored
candidate is invalid (`continue`), otherwise the stored candidate. -/
def jfa_sample (input : ℕ → ℕ → JFACoord) (sizex sizey : ℕ) (x y : ℤ)
    (off : ℤ × ℤ) : Option JFACoord :=
  let yy := y + off.1
  if yy < 0 ∨ (sizey : ℤ) ≤ yy then none
  else
    let xx := x + off.2
    if xx < 0 ∨ (sizex : ℤ) ≤ xx then none
    else
      let val := input xx.toNat yy.toNat
      if val.x = JFA_INVALID then none else some val
/-- One accumulation step of the sample loop in `jump_flooding_pass`:
skipped samples leave the accumulator unchanged; a valid candidate
replaces it when strictly closer. The initial
`minimum_squared_distance = FLT_MAX` is modelled as `none` (every actual
distance is smaller). -/
def jfa_best (input : ℕ → ℕ → JFACoord) (sizex sizey : ℕ) (x y : ℤ)
    (acc : JFACoord × Option ℤ) (off : ℤ × ℤ) : JFACoord × Option ℤ :=
  match jfa_sample input sizex sizey x y off with
  | none => acc
  | some val =>
      let d := dist_sq ((val.x : ℤ), (val.y : ℤ)) (x, y)
      match acc.2 with
      | none => (val, some d)
      | some m => if d < m then (val, some d) else acc
/-- The candidate written by `jump_flooding_pass` for one pixel: fold the
nine samples from `(closest = invalid, distance = FLT_MAX)`. -/
def jfa_candidate (input : ℕ → ℕ → JFACoord) (sizex sizey : ℕ)
    (x y : ℕ) (step : ℕ) : JFACoord :=
  ((jfa_offsets (step : ℤ)).foldl
    (jfa_best input sizex sizey (x : ℤ) (y : ℤ))
    (jfa_invalid_coord, none)).1
/-- The list of valid in-bounds candidates sampled for one pixel, in scan
order (used to state what "closest valid candidate" means). -/
def jfa_valid_samples (input : ℕ → ℕ → JFACoord) (sizex sizey : ℕ)
    (x y : ℕ) (step : ℕ) : List JFACoord :=
  (jfa_offsets (step : ℤ)).filterMap
    (jfa_sample input sizex sizey (x : ℤ) (y : ℤ))
/-- Squared distance from a candidate to the pixel `(x, y)`. -/
def jfa_dist_to (x y : ℕ) (c : JFACoord) : ℤ :=
  dist_sq ((c.x : ℤ), (c.y : ℤ)) ((x : ℤ), (y : ℤ))
/-- Membership of `v` in an `IndexRange` given as `(start, size)`. -/
def in_range (r : ℕ × ℕ) (v : ℕ) : Bool := r.1 ≤ v && v < r.1 + r.2
/-- `jump_flooding_pass(input, output, size, x_range, y_range, step_size)`:
pixels inside both ranges receive the closest sampled candidate; all other
output pixels keep the previous contents `old` of the output buffer. -/
def jump_flooding_pass (input old : ℕ → ℕ → JFACoord) (sizex sizey : ℕ)
    (xr yr : ℕ × ℕ) (step : ℕ) : ℕ → ℕ → JFACoord :=
  fun x y =>
    if in_range xr x && in_range yr y
    then jfa_candidate input sizex sizey x y step
    else old x y
/-- A grid with every pixel `{JFA_INVALID, JFA_INVALID}` (the pre-pass
contents of `initial_flooded_result` and `intermediate_result`). -/
def jfa_all_invalid : ℕ → ℕ → JFACoord := fun _ _ => jfa_invalid_coord
/-- JFA initialisation in `draw_text_outline`: a pixel's candidate is its
own coordinate when the opacity mask is set (`tmp_buf alpha ≥ 128`),
otherwise the invalid sentinel. -/
def jfa_boundary_init (mask : ℕ → ℕ → Bool) : ℕ → ℕ → JFACoord :=
  fun x y => if mask x y then ⟨x, y⟩ else jfa_invalid_coord
/-- The `while (step_size != 0)` loop of `draw_text_outline` with its
double buffering: each pass reads `cur`, overwrites the spare buffer
(whose stale contents `spare` persist outside the processed ranges), then
the buffers swap. -/
def jfa_loop (sizex sizey : ℕ) (xr yr : ℕ × ℕ) :
    List ℕ → (ℕ → ℕ → JFACoord) → (ℕ → ℕ → JFACoord) → (ℕ → ℕ → JFACoord)
  | [], cur, _ => cur
  | s :: rest, cur, spare =>
      jfa_loop sizex sizey xr yr rest
        (jump_flooding_pass cur spare sizex sizey xr yr s) cur
/-- The full flooding phase of `draw_text_outline`: boundary
initialisation from the opacity mask, the initial step-1 pass into an
all-invalid buffer, then the halving loop (`loop_steps` is
`halving_steps (power_of_2_max_i outline_width / 2)` in the source). -/
def draw_text_outline_flood (mask : ℕ → ℕ → Bool) (sizex sizey : ℕ)
    (xr yr : ℕ × ℕ) (loop_steps : List ℕ) : ℕ → ℕ → JFACoord :=
  let boundary := jfa_boundary_init mask
  let first := jump_flooding_pass boundary jfa_all_invalid sizex sizey xr yr 1
  jfa_loop sizex sizey xr yr loop_steps first jfa_all_invalid
/-- What `jump_flooding_pass` computes per pixel: a
squared-Euclidean-closest valid candidate among the nine samples, or the
invalid sentinel when no sample is valid. -/
def jfa_closest_spec (input : ℕ → ℕ → JFACoord) (sizex sizey : ℕ)
    (x y step : ℕ) (c : JFACoord) : Prop :=
  (jfa_valid_samples input sizex sizey x y step = [] ∧ c = jfa_invalid_coord)
  ∨ (c ∈ jfa_valid_samples input sizex sizey x y step
     ∧ ∀ v ∈ jfa_valid_samples input sizex sizey x y step,
         jfa_dist_to x y c ≤ jfa_dist_to x y v)
/-- The inclusive integer span `[lo, hi]` walked by the inner sample loops
of `gaussian_blur_x` / `gaussian_blur_y`. -/
def blur_index_span (lo hi : ℤ) : List ℤ :=
  (List.range (hi + 1 - lo).toNat).map (fun i : ℕ => lo + (i : ℤ))
/-- `make_gaussian_blur_kernel(rad, size)`; the external
`RE_filter_value(R_FILTER_GAUSS, ·)` is the abstract parameter `f`. -/
def make_gaussian_blur_kernel (f : ℚ → ℚ) (rad : ℚ) (size : ℕ) : List ℚ :=
  let n := 2 * size + 1
  let fac := if 0 < rad then 1 / rad else 0
  let vals := (List.range n).map (fun i => f (((i : ℚ) - (size : ℚ)) * fac))
  let sum := vals.sum
  vals.map (fun v => v * (1 / sum))
/-- One output pixel of `gaussian_blur_x<float4>`: clamp the sample window
to `[0, width-1]`, accumulate kernel-weighted samples and the weight sum,
then scale by the reciprocal weight. -/
def gaussian_blur_x_float (g : ℕ → ℚ) (half_size : ℕ) (width : ℕ)
    (img : ℤ → ℤ → PixFloat) (x y : ℤ) : PixFloat :=
  let xmin := max (x - (half_size : ℤ)) 0
  let xmax := min (x + (half_size : ℤ)) ((width : ℤ) - 1)
  let idxs := blur_index_span xmin xmax
  let w := fun nx : ℤ => g (nx - x + (half_size : ℤ)).toNat
  let aw := (idxs.map (fun nx => w nx)).sum
  let ar := (idxs.map (fun nx => w nx * (img nx y).r)).sum
  let ag := (idxs.map (fun nx => w nx * (img nx y).g)).sum
  let ab := (idxs.map (fun nx => w nx * (img nx y).b)).sum
  let aa := (idxs.map (fun nx => w nx * (img nx y).a)).sum
  ⟨ar * (1 / aw), ag * (1 / aw), ab * (1 / aw), aa * (1 / aw)⟩
/-- One output pixel of `gaussian_blur_y<float4>` (window clamped to
`[0, frame_height-1]`). -/
def gaussian_blur_y_float (g : ℕ → ℚ) (half_size : ℕ) (frame_height : ℕ)
    (img : ℤ → ℤ → PixFloat) (x y : ℤ) : PixFloat :=
  let ymin := max (y - (half_size : ℤ)) 0
  let ymax := min (y + (half_size : ℤ)) ((frame_height : ℤ) - 1)
  let idxs := blur_index_span ymin ymax
  let w := fun ny : ℤ => g (ny - y + (half_size : ℤ)).toNat
  let aw := (idxs.map (fun ny => w ny)).sum
  let ar := (idxs.map (fun ny => w ny * (img x ny).r)).sum
  let ag := (idxs.map (fun ny => w ny * (img x ny).g)).sum
  let ab := (idxs.map (fun ny => w ny * (img x ny).b)).sum
  let aa := (idxs.map (fun ny => w ny * (img x ny).a)).sum
  ⟨ar * (1 / aw), ag * (1 / aw), ab * (1 / aw), aa * (1 / aw)⟩
/-- One output pixel of `gaussian_blur_x<uchar4>`: float accumulation on
the byte samples, then the `accum[i] + 0.5f` biased store into `uchar`. -/
def gaussian_blur_x_byte (g : ℕ → ℚ) (half_size : ℕ) (width : ℕ)
    (img : ℤ → ℤ → PixByte) (x y : ℤ) : PixByte :=
  let xmin := max (x - (half_size : ℤ)) 0
  let xmax := min (x + (half_size : ℤ)) ((width : ℤ) - 1)
  let idxs := blur_index_span xmin xmax
  let w := fun nx : ℤ => g (nx - x + (half_size : ℤ)).toNat
  let aw := (idxs.map (fun nx => w nx)).sum
  let ar := (idxs.map (fun nx => w nx * ((img nx y).r.val : ℚ))).sum
  let ag := (idxs.map (fun nx => w nx * ((img nx y).g.val : ℚ))).sum
  let ab := (idxs.map (fun nx => w nx * ((img nx y).b.val : ℚ))).sum
  let aa := (idxs.map (fun nx => w nx * ((img nx y).a.val : ℚ))).sum
  ⟨toByte (c_int (ar * (1 / aw) + 1 / 2)),
   toByte (c_int (ag * (1 / aw) + 1 / 2)),
   toByte (c_int (ab * (1 / aw) + 1 / 2)),
   toByte (c_int (aa * (1 / aw) + 1 / 2))⟩
/-- One output pixel of `gaussian_blur_y<uchar4>`. -/
def gaussian_blur_y_byte (g : ℕ → ℚ) (half_size : ℕ) (frame_height : ℕ)
    (img : ℤ → ℤ → PixByte) (x y : ℤ) : PixByte :=
  let ymin := max (y - (half_size : ℤ)) 0
  let ymax := min (y + (half_size : ℤ)) ((frame_height : ℤ) - 1)
  let idxs := blur_index_span ymin ymax
  let w := fun ny : ℤ => g (ny - y + (half_size : ℤ)).toNat
  let aw := (idxs.map (fun ny => w ny)).sum
  let ar := (idxs.map (fun ny => w ny * ((img x ny).r.val : ℚ))).sum
  let ag := (idxs.map (fun ny => w ny * ((img x ny).g.val : ℚ))).sum
  let ab := (idxs.map (fun ny => w ny * ((img x ny).b.val : ℚ))).sum
  let aa := (idxs.map (fun ny => w ny * ((img x ny).a.val : ℚ))).sum
  ⟨toByte (c_int (ar * (1 / aw) + 1 / 2)),
   toByte (c_int (ag * (1 / aw) + 1 / 2)),
   toByte (c_int (ab * (1 / aw) + 1 / 2)),
   toByte (c_int (aa * (1 / aw) + 1 / 2))⟩
/-- A character entry as built by `build_character_info`. Modelled from the
spec: the per-character advance width is the integer pixel advance returned
by the font service (`BLF_glyph_advance`); `first_byte` is `str_ptr[0]`
(0 for the terminating NUL entry, 10 for a newline, 32 for a space);
`do_wrap` defaults to false; the `index` / `str_ptr` / `byte_length`
fields are not consulted by the wrapping logic and are omitted. -/
structure CharInfo where
  first_byte : ℕ
  advance_x : ℤ
  do_wrap : Bool
  position : ℚ × ℚ
deriving DecidableEq, Repr
/-- A line as accumulated by the second pass of `apply_word_wrapping`
(`width` is an `int`, assigned from the float running position). -/
structure LineInfo where
  characters : List CharInfo
  width : ℤ
deriving DecidableEq, Repr
/-- `wrap_width_get(data, image_size)`: wrap width 0 disables wrapping by
returning `std::numeric_limits<int>::max()`; otherwise the normalised
width is scaled by the image width (float product truncated to `int`). -/
def wrap_width_get (wrap_width : ℚ) (image_size_x : ℤ) : ℤ :=
  if wrap_width = 0 then 2147483647 else c_int (wrap_width * image_size_x)
/-- Set `do_wrap` on the list entry at index `i` (the
`last_space->do_wrap = true` store). -/
def mark_do_wrap : List CharInfo → ℕ → List CharInfo
  | [], _ => []
  | c :: t, 0 => { c with do_wrap := true } :: t
  | c :: t, i + 1 => c :: mark_do_wrap t i
/-- First pass of `apply_word_wrapping` ("find characters where line has
to be broken"): walks the characters with the running float position
`pos`, remembering the last space as `(index, its stored position, its
advance)`; on overflow past `wrap_width` the last space is marked
`do_wrap` and the position is rewound by the space's position plus its
advance (the source's `float2 - (float2 + scalar)` broadcast). `acc` holds
the already-processed prefix. -/
def first_pass_go (wrap_width : ℤ) :
    List CharInfo → ℚ × ℚ → Option (ℕ × (ℚ × ℚ) × ℤ) → List CharInfo →
    List CharInfo
  | [], _, _, acc => acc
  | c :: rest, pos, ls, acc =>
      let c1 := if c.first_byte = 32 then { c with position := pos } else c
      let ls1 := if c.first_byte = 32
                 then some (acc.length, pos, c.advance_x) else ls
      let pos2 := if c.first_byte = 10 then ((0 : ℚ), pos.2) else pos
      let ls2 := if c.first_byte = 10 then none else ls1
      let acc1 := acc ++ [c1]
      match ls2 with
      | none =>
          first_pass_go wrap_width rest (pos2.1 + (c.advance_x : ℚ), pos2.2)
            none acc1
      | some (i, lpos, ladv) =>
          if c.first_byte ≠ 0 ∧ (wrap_width : ℚ) < pos2.1 then
            let acc2 := mark_do_wrap acc1 i
            let pos3 := (pos2.1 - (lpos.1 + (ladv : ℚ)),
                         pos2.2 - (lpos.2 + (ladv : ℚ)))
            first_pass_go wrap_width rest
              (pos3.1 + (c.advance_x : ℚ), pos3.2) (some (i, lpos, ladv)) acc2
          else
            first_pass_go wrap_width rest (pos2.1 + (c.advance_x : ℚ), pos2.2)
              (some (i, lpos, ladv)) acc1
/-- Append a character to the last line and set that line's width (the
`runtime->lines.last()` updates of the second pass). -/
def append_char_to_last : List LineInfo → CharInfo → ℤ → List LineInfo
  | [], c, w => [⟨[c], w⟩]
  | [l], c, w => [⟨l.characters ++ [c], w⟩]
  | l :: t, c, w => l :: append_char_to_last t c w
/-- Second pass of `apply_word_wrapping` ("fill lines with characters"):
assigns final positions, appends each character to the current line,
records the line width as the (truncated) running position, and opens a
new line after a `do_wrap` character or a newline. -/
def second_pass_go (line_height : ℚ) :
    List CharInfo → ℚ × ℚ → List LineInfo → List LineInfo
  | [], _, lines => lines
  | c :: rest, pos, lines =>
      let c1 := { c with position := pos }
      let lines1 := append_char_to_last lines c1 (c_int pos.1)
      let posa := (pos.1 + (c.advance_x : ℚ), pos.2)
      if c.do_wrap ∨ c.first_byte = 10 then
        second_pass_go line_height rest (0, posa.2 - line_height)
          (lines1 ++ [⟨[], 0⟩])
      else
        second_pass_go line_height rest posa lines1
/-- `apply_word_wrapping(data, runtime, image_size, characters)`: the two
passes, starting from position `(0, 0)`, no last space, and one empty
line. -/
def apply_word_wrapping (wrap_width : ℤ) (line_height : ℚ)
    (chars : List CharInfo) : List LineInfo :=
  second_pass_go line_height (first_pass_go wrap_width chars (0, 0) none [])
    (0, 0) [⟨[], 0⟩]
/-- The fields of a character consulted by the second pass. -/
def char_strip (c : CharInfo) : ℕ × ℤ × Bool :=
  (c.first_byte, c.advance_x, c.do_wrap)

/- ------------------------------------------------------------------ -/
/- Theorems                                                            -/
/- ------------------------------------------------------------------ -/
theorem toByte_of_fin (m : Fin 256) : toByte (m.val : ℤ) = m := by
  apply Fin.ext
  have h : (m.val : ℤ) % 256 = m.val :=
    Int.emod_eq_of_lt (by exact_mod_cast Nat.zero_le m.val)
      (by exact_mod_cast m.isLt)
  simp [toByte, h]
theorem c_int_zero : c_int 0 = 0 := by simp [c_int]
theorem c_int_ofNat (n : ℕ) : c_int (n : ℚ) = n := by
  simp [c_int, Nat.cast_nonneg]
/-- C1: the output buffer is float-format iff at least one input has a float
buffer (both byte or both absent give a byte output), and after preparation
every present input carries the output's representation, so the per-pixel
math always sees both operands in one representation. -/
theorem C1_effect_output_format_promotion :
    ∀ i1 i2 : Option ImBufFmt,
      (prepare_effect_imbufs i1 i2).2.2.hasFloat
          = (imbuf_has_float i1 || imbuf_has_float i2)
      ∧ (prepare_effect_imbufs i1 i2).2.2.hasByte
          = !(imbuf_has_float i1 || imbuf_has_float i2)
      ∧ shares_rep (prepare_effect_imbufs i1 i2).1
          (prepare_effect_imbufs i1 i2).2.2 = true
      ∧ shares_rep (prepare_effect_imbufs i1 i2).2.1
          (prepare_effect_imbufs i1 i2).2.2 = true := by
  decide
theorem zipWith_eq_left {α β : Type} (f : α → β → α) (h : ∀ a b, f a b = a) :
    ∀ l1 : List α, ∀ l2 : List β, l1.length = l2.length →
      List.zipWith f l1 l2 = l1 := by
  intro l1
  induction l1 with
  | nil => intro l2 _; rfl
  | cons a t ih =>
      intro l2 hl
      cases l2 with
      | nil => simp at hl
      | cons b t2 =>
          simp only [List.zipWith_cons_cons, h a b]
          simp only [List.length_cons, Nat.add_right_cancel_iff] at hl
          rw [ih t2 hl]
theorem zipWith_eq_right {α β : Type} (f : α → β → β) (h : ∀ a b, f a b = b) :
    ∀ l1 : List α, ∀ l2 : List β, l1.length = l2.length →
      List.zipWith f l1 l2 = l2 := by
  intro l1
  induction l1 with
  | nil => intro l2 hl; cases l2 with
      | nil => rfl
      | cons b t2 => simp at hl
  | cons a t ih =>
      intro l2 hl
      cases l2 with
      | nil => simp at hl
      | cons b t2 =>
          simp only [List.zipWith_cons_cons, h a b]
          simp only [List.length_cons, Nat.add_right_cancel_iff] at hl
          rw [ih t2 hl]
theorem cross_pix_byte_fac0 (p1 p2 : PixByte) :
    cross_pix_byte 0 256 p1 p2 = p1 := by
  have key : ∀ v w : Fin 256,
      toByte ((256 * (v.val : ℤ) + 0 * (w.val : ℤ)) / 2 ^ 8) = v := by
    intro v w
    have h : (256 * (v.val : ℤ) + 0 * (w.val : ℤ)) / 2 ^ 8 = v.val := by
      have : (256 * (v.val : ℤ) + 0 * (w.val : ℤ)) = 256 * v.val := by ring
      rw [this]
      exact Int.mul_ediv_cancel_left _ (by norm_num)
    rw [h, toByte_of_fin]
  cases p1; cases p2
  simp [cross_pix_byte, key, toByte_of_fin]
theorem cross_pix_byte_fac1 (p1 p2 : PixByte) :
    cross_pix_byte 256 0 p1 p2 = p2 := by
  have key : ∀ v w : Fin 256,
      toByte ((0 * (v.val : ℤ) + 256 * (w.val : ℤ)) / 2 ^ 8) = w := by
    intro v w
    have h : (0 * (v.val : ℤ) + 256 * (w.val : ℤ)) / 2 ^ 8 = w.val := by
      have : (0 * (v.val : ℤ) + 256 * (w.val : ℤ)) = 256 * w.val := by ring
      rw [this]
      exact Int.mul_ediv_cancel_left _ (by norm_num)
    rw [h, toByte_of_fin]
  cases p1; cases p2
  simp [cross_pix_byte, key, toByte_of_fin]
/-- C2: the cross effect at factor 0 reproduces input1 bit-for-bit and at
factor 1 reproduces input2, on both the byte fixed-point path and the float
path, and `early_out_fade` short-circuits to the corresponding input at
those factors. -/
theorem C2_cross_identity_at_0_and_1
    (b1 b2 : List PixByte) (f1 f2 : List PixFloat)
    (hb : b1.length = b2.length) (hf : f1.length = f2.length) :
    do_cross_effect_byte 0 b1 b2 = b1
    ∧ do_cross_effect_byte 1 b1 b2 = b2
    ∧ do_cross_effect_float 0 f1 f2 = f1
    ∧ do_cross_effect_float 1 f1 f2 = f2
    ∧ early_out_fade 0 = StripEarlyOut.UseInput1
    ∧ early_out_fade 1 = StripEarlyOut.UseInput2 := by
  refine ⟨?_, ?_, ?_, ?_, rfl, rfl⟩
  · unfold do_cross_effect_byte
    rw [show c_int (256 * 0) = 0 by norm_num [c_int]]
    exact zipWith_eq_left _ (by simpa using cross_pix_byte_fac0) b1 b2 hb
  · unfold do_cross_effect_byte
    rw [show c_int (256 * 1) = 256 by norm_num [c_int]]
    exact zipWith_eq_right _ (by simpa using cross_pix_byte_fac1) b1 b2 hb
  · unfold do_cross_effect_float
    refine zipWith_eq_left _ ?_ f1 f2 hf
    intro a b; cases a; cases b; simp [cross_pix_float]
  · unfold do_cross_effect_float
    refine zipWith_eq_right _ ?_ f1 f2 hf
    intro a b; cases a; cases b; simp [cross_pix_float]
/-- Witness for `C2_cross_identity_at_0_and_1` at concrete one-pixel
images. -/
theorem C2_cross_identity_witness :
    ([⟨10, 20, 30, 255⟩] : List PixByte).length
      = ([⟨1, 2, 3, 4⟩] : List PixByte).length
    ∧ (do_cross_effect_byte 0 [⟨10, 20, 30, 255⟩] [⟨1, 2, 3, 4⟩]
        = [⟨10, 20, 30, 255⟩]
      ∧ do_cross_effect_byte 1 [⟨10, 20, 30, 255⟩] [⟨1, 2, 3, 4⟩]
        = [⟨1, 2, 3, 4⟩]
      ∧ do_cross_effect_float 0 [⟨1, 1/2, 0, 1⟩] [⟨0, 1/4, 1, 1⟩]
        = [⟨1, 1/2, 0, 1⟩]
      ∧ do_cross_effect_float 1 [⟨1, 1/2, 0, 1⟩] [⟨0, 1/4, 1, 1⟩]
        = [⟨0, 1/4, 1, 1⟩]
      ∧ early_out_fade 0 = StripEarlyOut.UseInput1
      ∧ early_out_fade 1 = StripEarlyOut.UseInput2) :=
  ⟨rfl, C2_cross_identity_at_0_and_1 _ _ _ _ rfl rfl⟩
/-- C3: for every blend mode (any per-mode blend function), every factor and
both pixel representations, the second input buffer is bit-for-bit unchanged
when `apply_blend_function` returns: the temporary scaling of its alpha
channel is restored exactly, so blend-mode effect inputs are never mutated
in place. -/
theorem C3_blend_input2_restored (fac : ℚ)
    (bf : PixByte → PixByte → PixByte) (ff : PixFloat → PixFloat → PixFloat) :
    ∀ (b1 b2 : List PixByte) (f1 f2 : List PixFloat),
      (apply_blend_function_byte fac bf b1 b2).2 = b2
      ∧ (apply_blend_function_float fac ff f1 f2).2 = f2 := by
  have hb : ∀ b1 b2 : List PixByte,
      (apply_blend_function_byte fac bf b1 b2).2 = b2 := by
    intro b1
    induction b1 with
    | nil => intro b2; cases b2 <;> rfl
    | cons p1 t1 ih =>
        intro b2
        cases b2 with
        | nil => rfl
        | cons p2 t2 => simp [apply_blend_function_byte, ih t2]
  have hf : ∀ f1 f2 : List PixFloat,
      (apply_blend_function_float fac ff f1 f2).2 = f2 := by
    intro f1
    induction f1 with
    | nil => intro f2; cases f2 <;> rfl
    | cons p1 t1 ih =>
        intro f2
        cases f2 with
        | nil => rfl
        | cons p2 t2 => simp [apply_blend_function_float, ih t2]
  exact fun b1 b2 f1 f2 => ⟨hb b1 b2, hf f1 f2⟩
theorem zipWith_map_proj {α β γ : Type} (proj : α → γ) (f : α → β → α)
    (hp : ∀ a b, proj (f a b) = proj a) :
    ∀ l1 : List α, ∀ l2 : List β, l1.length = l2.length →
      (List.zipWith f l1 l2).map proj = l1.map proj := by
  intro l1
  induction l1 with
  | nil => intro l2 _; rfl
  | cons a t ih =>
      intro l2 hl
      cases l2 with
      | nil => simp at hl
      | cons b t2 =>
          simp only [List.zipWith_cons_cons, List.map_cons, hp a b]
          simp only [List.length_cons, Nat.add_right_cancel_iff] at hl
          rw [ih t2 hl]
theorem apply_blend_byte_alphas (fac : ℚ)
    (bf : PixByte → PixByte → PixByte) :
    ∀ b1 b2 : List PixByte, b1.length = b2.length →
      alphasB (apply_blend_function_byte fac bf b1 b2).1 = alphasB b1 := by
  intro b1
  induction b1 with
  | nil => intro b2 _; rfl
  | cons p1 t1 ih =>
      intro b2 hl
      cases b2 with
      | nil => simp at hl
      | cons p2 t2 =>
          simp only [List.length_cons, Nat.add_right_cancel_iff] at hl
          simp [apply_blend_function_byte, alphasB, List.map_cons]
          have := ih t2 hl
          simpa [alphasB] using this
theorem apply_blend_float_alphas (fac : ℚ)
    (ff : PixFloat → PixFloat → PixFloat) :
    ∀ f1 f2 : List PixFloat, f1.length = f2.length →
      alphasF (apply_blend_function_float fac ff f1 f2).1 = alphasF f1 := by
  intro f1
  induction f1 with
  | nil => intro f2 _; rfl
  | cons p1 t1 ih =>
      intro f2 hl
      cases f2 with
      | nil => simp at hl
      | cons p2 t2 =>
          simp only [List.length_cons, Nat.add_right_cancel_iff] at hl
          simp [apply_blend_function_float, alphasF, List.map_cons]
          have := ih t2 hl
          simpa [alphasF] using this
/-- C10: for every pixel, blend sub-mode (arbitrary blend function) and
factor, the blend-mode application and the add / subtract effects write
input1's alpha unchanged to the output alpha channel — the blend function's
computed alpha is discarded. -/
theorem C10_output_alpha_is_input1_alpha (fac : ℚ)
    (bf : PixByte → PixByte → PixByte) (ff : PixFloat → PixFloat → PixFloat)
    (b1 b2 : List PixByte) (f1 f2 : List PixFloat)
    (hb : b1.length = b2.length) (hf : f1.length = f2.length) :
    alphasB (apply_blend_function_byte fac bf b1 b2).1 = alphasB b1
    ∧ alphasF (apply_blend_function_float fac ff f1 f2).1 = alphasF f1
    ∧ alphasB (do_add_effect_byte fac b1 b2) = alphasB b1
    ∧ alphasF (do_add_effect_float fac f1 f2) = alphasF f1
    ∧ alphasB (do_sub_effect_byte fac b1 b2) = alphasB b1
    ∧ alphasF (do_sub_effect_float fac f1 f2) = alphasF f1 := by
  refine ⟨apply_blend_byte_alphas fac bf b1 b2 hb,
          apply_blend_float_alphas fac ff f1 f2 hf, ?_, ?_, ?_, ?_⟩
  · simp only [alphasB, do_add_effect_byte]
    exact zipWith_map_proj (fun p => p.a) (add_pix_byte (c_int (256 * fac)))
      (fun a b => rfl) b1 b2 hb
  · simp only [alphasF, do_add_effect_float]
    exact zipWith_map_proj (fun p => p.a) (add_pix_float fac)
      (fun a b => show (add_pix_float fac a b).a = a.a from rfl) f1 f2 hf
  · simp only [alphasB, do_sub_effect_byte]
    exact zipWith_map_proj (fun p => p.a) (sub_pix_byte (c_int (256 * fac)))
      (fun a b => rfl) b1 b2 hb
  · simp only [alphasF, do_sub_effect_float]
    exact zipWith_map_proj (fun p => p.a) (sub_pix_float fac)
      (fun a b => show (sub_pix_float fac a b).a = a.a from rfl) f1 f2 hf
/-- Witness for `C10_output_alpha_is_input1_alpha` at concrete one-pixel
inputs and a concrete blend function. -/
theorem C10_output_alpha_witness :
    ([⟨3, 4, 5, 77⟩] : List PixByte).length
      = ([⟨6, 7, 8, 200⟩] : List PixByte).length
    ∧ (alphasB (apply_blend_function_byte (1/2) (fun a _ => a)
          [⟨3, 4, 5, 77⟩] [⟨6, 7, 8, 200⟩]).1 = alphasB [⟨3, 4, 5, 77⟩]
      ∧ alphasF (apply_blend_function_float (1/2) (fun a _ => a)
          [⟨1, 0, 0, 3/4⟩] [⟨0, 1, 0, 1/2⟩]).1 = alphasF [⟨1, 0, 0, 3/4⟩]
      ∧ alphasB (do_add_effect_byte (1/2) [⟨3, 4, 5, 77⟩] [⟨6, 7, 8, 200⟩])
          = alphasB [⟨3, 4, 5, 77⟩]
      ∧ alphasF (do_add_effect_float (1/2) [⟨1, 0, 0, 3/4⟩] [⟨0, 1, 0, 1/2⟩])
          = alphasF [⟨1, 0, 0, 3/4⟩]
      ∧ alphasB (do_sub_effect_byte (1/2) [⟨3, 4, 5, 77⟩] [⟨6, 7, 8, 200⟩])
          = alphasB [⟨3, 4, 5, 77⟩]
      ∧ alphasF (do_sub_effect_float (1/2) [⟨1, 0, 0, 3/4⟩] [⟨0, 1, 0, 1/2⟩])
          = alphasF [⟨1, 0, 0, 3/4⟩]) :=
  ⟨rfl, C10_output_alpha_is_input1_alpha (1/2) (fun a _ => a) (fun a _ => a)
    _ _ _ _ rfl rfl⟩
/-- C4: for every effect-type identifier that is not one of the registered
effect types, the returned handle has a null whole-image executor and a
null slice executor, and the public input count `SEQ_effect_get_num_inputs`
returns 0; no error is raised (the function always returns a handle). -/
theorem C4_unknown_type_null_executor (code : ℕ) :
    (get_sequence_effect_impl (.unregistered code)).execute = none
    ∧ (get_sequence_effect_impl (.unregistered code)).execute_slice = none
    ∧ SEQ_effect_get_num_inputs (.unregistered code) = 0 :=
  ⟨rfl, rfl, rfl⟩
theorem glow_fill_at_hi (w : ℕ → ℚ) (h : ℕ) (f : ℕ → ℚ) :
    ∀ n, n ≤ h → ∀ ix, ix < n → glow_fill w h n f (h + ix) = w ix := by
  intro n
  induction n with
  | zero => intro _ ix hix; omega
  | succ m ih =>
      intro hn ix hix
      by_cases hx : ix = m
      · subst hx
        simp [glow_fill, Function.update_same]
      · have h1 : h + ix ≠ h + m := by omega
        have h2 : h + ix ≠ h - m := by omega
        simp only [glow_fill, Function.update_noteq h1,
          Function.update_noteq h2]
        exact ih (by omega) ix (by omega)
theorem glow_fill_at_lo (w : ℕ → ℚ) (h : ℕ) (f : ℕ → ℚ) :
    ∀ n, n ≤ h → ∀ ix, ix < n → glow_fill w h n f (h - ix) = w ix := by
  intro n
  induction n with
  | zero => intro _ ix hix; omega
  | succ m ih =>
      intro hn ix hix
      by_cases hx : ix = m
      · subst hx
        by_cases hm : ix = 0
        · subst hm
          simp [glow_fill, Function.update_same]
        · have h1 : h - ix ≠ h + ix := by omega
          simp only [glow_fill, Function.update_noteq h1,
            Function.update_same]
      · have h1 : h - ix ≠ h + m := by omega
        have h2 : h - ix ≠ h - m := by omega
        simp only [glow_fill, Function.update_noteq h1,
          Function.update_noteq h2]
        exact ih (by omega) ix (by omega)
theorem glow_filter_at_hi (e : ℚ → ℚ) (blur : ℚ) (h : ℕ) (hh : 1 ≤ h)
    (i : ℕ) (hi : i < h) :
    glow_filter e blur h (h + i) = glow_weight e blur i := by
  unfold glow_filter
  rw [Function.update_noteq (by omega)]
  exact glow_fill_at_hi _ h _ h le_rfl i hi
theorem glow_filter_at_lo (e : ℚ → ℚ) (blur : ℚ) (h : ℕ) (hh : 1 ≤ h)
    (i : ℕ) (hi : i < h) :
    glow_filter e blur h (h - i) = glow_weight e blur i := by
  unfold glow_filter
  rw [Function.update_noteq (by omega)]
  exact glow_fill_at_lo _ h _ h le_rfl i hi
theorem glow_filter_pos (e : ℚ → ℚ) (blur : ℚ) (h : ℕ)
    (he : ∀ x, 0 < e x) (hh : 1 ≤ h) :
    ∀ j < 2 * h, 0 < glow_filter e blur h j := by
  intro j hj
  by_cases hj0 : j = 0
  · subst hj0
    unfold glow_filter
    rw [Function.update_same]
    exact he _
  · rcases le_or_lt h j with hcase | hcase
    · have : j = h + (j - h) := by omega
      rw [this, glow_filter_at_hi e blur h hh _ (by omega)]
      exact he _
    · have : j = h - (h - j) := by omega
      rw [this, glow_filter_at_lo e blur h hh _ (by omega)]
      exact he _
/-- C5 counterexample: at `blur = 2`, `quality = 0` (so `halfWidth = 2`),
the un-normalised kernel entry at offset `+1` is `e(-1 / (8·π))` — the
argument passed to the external `exp` by the code is `-i²/(2·π·radius²)` —
whereas the claim's formula `exp(-i²/(2·radius²))` prescribes `e(-1/8)`.
Instantiating the abstract exponential `e` with the identity exposes the
two different arguments; since the real `exp` is strictly monotone
(injective), the kernel values differ as well. -/
theorem C5_kernel_formula_counterexample :
    glow_halfWidth 2 0 = 2
    ∧ glow_filter id 2 2 (2 + 1) = -1 / (8 * M_PI)
    ∧ spec_glow_kernel id 2 1 = -1 / 8
    ∧ glow_filter id 2 2 (2 + 1) ≠ spec_glow_kernel id 2 1 := by
  have h1 : glow_halfWidth 2 0 = 2 := by simp [glow_halfWidth, c_int]
  have h2 : glow_filter id 2 2 (2 + 1) = -1 / (8 * M_PI) := by
    rw [glow_filter_at_hi id 2 2 (by norm_num) 1 (by norm_num)]
    unfold glow_weight glow_k
    rw [show (2 : ℚ) * M_PI * 2 * 2 = 8 * M_PI by ring]
    norm_num
  have h3 : spec_glow_kernel id 2 1 = -1 / 8 := by
    unfold spec_glow_kernel
    norm_num
  refine ⟨h1, h2, h3, ?_⟩
  rw [h2, h3]
  norm_num [M_PI]
/-- C5 (amended): before normalization the kernel satisfies
`kernel[i] = exp(-i² / (2·π·radius²))` for every offset `i` with `|i|`
less than the half-width (the code's exponent carries an extra `π` factor
relative to the claim), and after normalization the kernel values sum
to 1. The external `exp` is any strictly positive function `e`. -/
theorem C5_kernel_gaussian_and_normalized (e : ℚ → ℚ) (blur : ℚ)
    (quality : ℕ) (he : ∀ x, 0 < e x)
    (hh : 1 ≤ glow_halfWidth blur quality) :
    (∀ i < glow_halfWidth blur quality,
        glow_filter e blur (glow_halfWidth blur quality)
            (glow_halfWidth blur quality + i)
          = e (glow_k blur * (i * i))
        ∧ glow_filter e blur (glow_halfWidth blur quality)
            (glow_halfWidth blur quality - i)
          = e (glow_k blur * (i * i)))
    ∧ ∑ j ∈ Finset.range (2 * glow_halfWidth blur quality),
        glow_filter_normalized e blur (glow_halfWidth blur quality) j
      = 1 := by
  set h := glow_halfWidth blur quality with hdef
  constructor
  · intro i hi
    exact ⟨glow_filter_at_hi e blur h hh i hi,
           glow_filter_at_lo e blur h hh i hi⟩
  · have hsum_pos : 0 < glow_filter_sum e blur h := by
      unfold glow_filter_sum
      apply Finset.sum_pos
      · intro j hj
        exact glow_filter_pos e blur h he hh j (Finset.mem_range.mp hj)
      · exact ⟨0, Finset.mem_range.mpr (by omega)⟩
    unfold glow_filter_normalized
    rw [← Finset.sum_div]
    exact div_self (by exact ne_of_gt hsum_pos)
/-- Witness for `C5_kernel_gaussian_and_normalized` at `e = 1`, `blur = 1`,
`quality = 0`. -/
theorem C5_kernel_witness :
    (∀ x : ℚ, 0 < (fun _ : ℚ => (1 : ℚ)) x)
    ∧ 1 ≤ glow_halfWidth 1 0
    ∧ ((∀ i < glow_halfWidth 1 0,
          glow_filter (fun _ => 1) 1 (glow_halfWidth 1 0)
              (glow_halfWidth 1 0 + i)
            = (fun _ : ℚ => (1 : ℚ)) (glow_k 1 * (i * i))
          ∧ glow_filter (fun _ => 1) 1 (glow_halfWidth 1 0)
              (glow_halfWidth 1 0 - i)
            = (fun _ : ℚ => (1 : ℚ)) (glow_k 1 * (i * i)))
      ∧ ∑ j ∈ Finset.range (2 * glow_halfWidth 1 0),
          glow_filter_normalized (fun _ => 1) 1 (glow_halfWidth 1 0) j
        = 1) :=
  ⟨fun _ => one_pos, by simp [glow_halfWidth, c_int],
   C5_kernel_gaussian_and_normalized (fun _ => 1) 1 0 (fun _ => one_pos)
     (by simp [glow_halfWidth, c_int])⟩
theorem two_pow_add_land (t a b : ℕ) (ha : a < 2 ^ t) (hb : b < 2 ^ t) :
    (2 ^ t + a) &&& (2 ^ t + b) = 2 ^ t + (a &&& b) := by
  apply Nat.eq_of_testBit_eq
  intro i
  rcases lt_trichotomy i t with hc | hc | hc
  · rw [Nat.testBit_and, Nat.testBit_two_pow_add_gt hc,
      Nat.testBit_two_pow_add_gt hc, Nat.testBit_two_pow_add_gt hc,
      Nat.testBit_and]
  · subst hc
    rw [Nat.testBit_and, Nat.testBit_two_pow_add_eq, Nat.testBit_two_pow_add_eq,
      Nat.testBit_two_pow_add_eq, Nat.testBit_lt_two_pow ha,
      Nat.testBit_lt_two_pow hb,
      Nat.testBit_lt_two_pow (Nat.and_lt_two_pow a hb)]
    rfl
  · have h2 : 2 ^ (t + 1) ≤ 2 ^ i := Nat.pow_le_pow_right (by norm_num) hc
    have e1 : 2 ^ t + a < 2 ^ i := by
      have : 2 ^ t + a < 2 ^ (t + 1) := by
        have := Nat.pow_succ 2 t
        omega
      omega
    have e2 : 2 ^ t + b < 2 ^ i := by
      have : 2 ^ t + b < 2 ^ (t + 1) := by
        have := Nat.pow_succ 2 t
        omega
      omega
    have e3 : 2 ^ t + (a &&& b) < 2 ^ i := by
      have hab : a &&& b < 2 ^ t := Nat.and_lt_two_pow a hb
      have : 2 ^ t + (a &&& b) < 2 ^ (t + 1) := by
        have := Nat.pow_succ 2 t
        omega
      omega
    rw [Nat.testBit_and, Nat.testBit_lt_two_pow e1, Nat.testBit_lt_two_pow e2,
      Nat.testBit_lt_two_pow e3]
    rfl
theorem is_pow2_two_pow (t : ℕ) : is_power_of_2_i (2 ^ t) = true := by
  unfold is_power_of_2_i
  rw [Nat.and_pow_two_sub_one_eq_mod, Nat.mod_self]
  rfl
theorem is_pow2_mixed_false (t a : ℕ) (ha0 : 0 < a) (ha : a < 2 ^ t) :
    is_power_of_2_i (2 ^ t + a) = false := by
  unfold is_power_of_2_i
  have h1 : 2 ^ t + a - 1 = 2 ^ t + (a - 1) := by omega
  rw [h1, two_pow_add_land t a (a - 1) ha (by omega)]
  have h2 : 2 ^ t + (a &&& (a - 1)) ≠ 0 := by positivity
  simpa using h2
theorem pow2max_loop_mixed :
    ∀ a, ∀ t, 0 < a → a < 2 ^ t → pow2max_loop (2 ^ t + a) = 2 ^ (t + 1) := by
  intro a
  induction a using Nat.strong_induction_on with
  | _ a ih =>
      intro t ha0 ha
      have h1 : 2 ^ t + a - 1 = 2 ^ t + (a - 1) := by omega
      have h2 : (2 ^ t + a) &&& (2 ^ t + a - 1) = 2 ^ t + (a &&& (a - 1)) := by
        rw [h1]
        exact two_pow_add_land t a (a - 1) ha (by omega)
      have hle : a &&& (a - 1) ≤ a - 1 := Nat.and_le_right
      rw [pow2max_loop]
      by_cases hz : a &&& (a - 1) = 0
      · rw [dif_pos (by rw [h2, hz]; simpa using is_pow2_two_pow t)]
        rw [h2, hz, Nat.add_zero, Nat.pow_succ, Nat.mul_comm]
      · rw [dif_neg (by
          rw [h2]
          rw [is_pow2_mixed_false t _ (by omega) (by omega)]
          simp)]
        rw [h2]
        exact ih (a &&& (a - 1)) (by omega) t (by omega) (by omega)
/-- `power_of_2_max_i` rounds up to the smallest power of two that is at
least its argument. -/
theorem power_of_2_max_eq_clog (n : ℕ) (hn : 1 ≤ n) :
    power_of_2_max_i n = 2 ^ Nat.clog 2 n := by
  set t := Nat.log 2 n with ht
  have hlo : 2 ^ t ≤ n := Nat.pow_log_le_self 2 (by omega)
  have hhi : n < 2 ^ (t + 1) := Nat.lt_pow_succ_log_self (by norm_num) n
  set a := n - 2 ^ t with haa
  have hn_eq : n = 2 ^ t + a := by omega
  by_cases hz : a = 0
  · have hneq : n = 2 ^ t := by omega
    rw [hneq, power_of_2_max_i, if_pos (is_pow2_two_pow t),
      Nat.clog_pow 2 t (by norm_num)]
  · have ha : a < 2 ^ t := by
      have := Nat.pow_succ 2 t
      omega
    have hfalse : is_power_of_2_i n = false := by
      rw [hn_eq]
      exact is_pow2_mixed_false t a (by omega) ha
    have hclog : Nat.clog 2 n = t + 1 := by
      have hub : Nat.clog 2 n ≤ t + 1 :=
        (Nat.le_pow_iff_clog_le (by norm_num)).mp (le_of_lt hhi)
      have hlb : ¬ Nat.clog 2 n ≤ t := by
        intro hcon
        have := (Nat.le_pow_iff_clog_le (by norm_num)).mpr hcon
        omega
      omega
    have hloop : pow2max_loop n = 2 ^ (t + 1) := by
      rw [hn_eq]
      exact pow2max_loop_mixed a t (by omega) ha
    rw [power_of_2_max_i, if_neg (by simp [hfalse]), hloop, hclog]
theorem halving_steps_eq (s : ℕ) :
    halving_steps s = if s = 0 then [] else s :: halving_steps (s / 2) := by
  cases s with
  | zero => simp [halving_steps]
  | succ m => simp [halving_steps]
theorem halving_steps_two_pow_len :
    ∀ k, (halving_steps (2 ^ k)).length = k + 1 := by
  intro k
  induction k with
  | zero =>
      rw [pow_zero, halving_steps_eq, if_neg (by norm_num)]
      simp [halving_steps]
  | succ m ih =>
      rw [halving_steps_eq, if_neg (by positivity)]
      have hdiv : 2 ^ (m + 1) / 2 = 2 ^ m := by
        rw [Nat.pow_succ, Nat.mul_div_cancel _ (by norm_num)]
      simp [hdiv, ih]
theorem jfa_fold_some (input : ℕ → ℕ → JFACoord) (sx sy : ℕ) (xi yi : ℤ) :
    ∀ (L : List (ℤ × ℤ)) (c : JFACoord),
      ((L.foldl (jfa_best input sx sy xi yi)
          (c, some (dist_sq ((c.x : ℤ), (c.y : ℤ)) (xi, yi)))).1
        ∈ c :: L.filterMap (jfa_sample input sx sy xi yi))
      ∧ (L.foldl (jfa_best input sx sy xi yi)
          (c, some (dist_sq ((c.x : ℤ), (c.y : ℤ)) (xi, yi)))).2
          = some (dist_sq
              (((L.foldl (jfa_best input sx sy xi yi)
                  (c, some (dist_sq ((c.x : ℤ), (c.y : ℤ)) (xi, yi)))).1.x : ℤ),
               ((L.foldl (jfa_best input sx sy xi yi)
                  (c, some (dist_sq ((c.x : ℤ), (c.y : ℤ)) (xi, yi)))).1.y : ℤ))
              (xi, yi))
      ∧ dist_sq
          (((L.foldl (jfa_best input sx sy xi yi)
              (c, some (dist_sq ((c.x : ℤ), (c.y : ℤ)) (xi, yi)))).1.x : ℤ),
           ((L.foldl (jfa_best input sx sy xi yi)
              (c, some (dist_sq ((c.x : ℤ), (c.y : ℤ)) (xi, yi)))).1.y : ℤ))
          (xi, yi)
          ≤ dist_sq ((c.x : ℤ), (c.y : ℤ)) (xi, yi)
      ∧ ∀ v ∈ L.filterMap (jfa_sample input sx sy xi yi),
          dist_sq
            (((L.foldl (jfa_best input sx sy xi yi)
                (c, some (dist_sq ((c.x : ℤ), (c.y : ℤ)) (xi, yi)))).1.x : ℤ),
             ((L.foldl (jfa_best input sx sy xi yi)
                (c, some (dist_sq ((c.x : ℤ), (c.y : ℤ)) (xi, yi)))).1.y : ℤ))
            (xi, yi)
            ≤ dist_sq ((v.x : ℤ), (v.y : ℤ)) (xi, yi) := by
  intro L
  induction L with
  | nil =>
      intro c
      refine ⟨List.mem_cons_self _ _, rfl, le_refl _, ?_⟩
      intro v hv
      simp at hv
  | cons off T ih =>
      intro c
      rcases hsamp : jfa_sample input sx sy xi yi off with _ | val
      · have hstep : jfa_best input sx sy xi yi
            (c, some (dist_sq ((c.x : ℤ), (c.y : ℤ)) (xi, yi))) off
            = (c, some (dist_sq ((c.x : ℤ), (c.y : ℤ)) (xi, yi))) := by
          simp [jfa_best, hsamp]
        simp only [List.foldl_cons, List.filterMap_cons, hsamp, hstep]
        exact ih c
      · have hfm : (off :: T).filterMap (jfa_sample input sx sy xi yi)
            = val :: T.filterMap (jfa_sample input sx sy xi yi) := by
          simp [List.filterMap_cons, hsamp]
        by_cases hlt : dist_sq ((val.x : ℤ), (val.y : ℤ)) (xi, yi)
            < dist_sq ((c.x : ℤ), (c.y : ℤ)) (xi, yi)
        · have hstep : jfa_best input sx sy xi yi
              (c, some (dist_sq ((c.x : ℤ), (c.y : ℤ)) (xi, yi))) off
              = (val, some (dist_sq ((val.x : ℤ), (val.y : ℤ)) (xi, yi))) := by
            simp [jfa_best, hsamp, hlt]
          simp only [List.foldl_cons, hfm, hstep]
          obtain ⟨m1, m2, m3, m4⟩ := ih val
          refine ⟨?_, m2, le_trans m3 (le_of_lt hlt), ?_⟩
          · rcases List.mem_cons.mp m1 with hh | hh
            · rw [hh]
              exact List.mem_cons_of_mem _ (List.mem_cons_self _ _)
            · exact List.mem_cons_of_mem _ (List.mem_cons_of_mem _ hh)
          · intro v hv
            rcases List.mem_cons.mp hv with hh | hh
            · rw [hh]
              exact m3
            · exact m4 v hh
        · have hstep : jfa_best input sx sy xi yi
              (c, some (dist_sq ((c.x : ℤ), (c.y : ℤ)) (xi, yi))) off
              = (c, some (dist_sq ((c.x : ℤ), (c.y : ℤ)) (xi, yi))) := by
            simp [jfa_best, hsamp, hlt]
          simp only [List.foldl_cons, hfm, hstep]
          obtain ⟨m1, m2, m3, m4⟩ := ih c
          refine ⟨?_, m2, m3, ?_⟩
          · rcases List.mem_cons.mp m1 with hh | hh
            · rw [hh]
              exact List.mem_cons_self _ _
            · exact List.mem_cons_of_mem _ (List.mem_cons_of_mem _ hh)
          · intro v hv
            rcases List.mem_cons.mp hv with hh | hh
            · rw [hh]
              exact le_trans m3 (not_lt.mp hlt)
            · exact m4 v hh
theorem jfa_fold_none (input : ℕ → ℕ → JFACoord) (sx sy : ℕ) (xi yi : ℤ) :
    ∀ L : List (ℤ × ℤ),
      (L.filterMap (jfa_sample input sx sy xi yi) = [] →
        L.foldl (jfa_best input sx sy xi yi) (jfa_invalid_coord, none)
          = (jfa_invalid_coord, none))
      ∧ (L.filterMap (jfa_sample input sx sy xi yi) ≠ [] →
        (L.foldl (jfa_best input sx sy xi yi) (jfa_invalid_coord, none)).1
          ∈ L.filterMap (jfa_sample input sx sy xi yi)
        ∧ ∀ v ∈ L.filterMap (jfa_sample input sx sy xi yi),
            dist_sq
              (((L.foldl (jfa_best input sx sy xi yi)
                  (jfa_invalid_coord, none)).1.x : ℤ),
               ((L.foldl (jfa_best input sx sy xi yi)
                  (jfa_invalid_coord, none)).1.y : ℤ)) (xi, yi)
              ≤ dist_sq ((v.x : ℤ), (v.y : ℤ)) (xi, yi)) := by
  intro L
  induction L with
  | nil => exact ⟨fun _ => rfl, fun h => absurd rfl h⟩
  | cons off T ih =>
      rcases hsamp : jfa_sample input sx sy xi yi off with _ | val
      · have hstep : jfa_best input sx sy xi yi (jfa_invalid_coord, none) off
            = (jfa_invalid_coord, none) := by
          simp [jfa_best, hsamp]
        have hfm : (off :: T).filterMap (jfa_sample input sx sy xi yi)
            = T.filterMap (jfa_sample input sx sy xi yi) := by
          simp [List.filterMap_cons, hsamp]
        simp only [List.foldl_cons, hfm, hstep]
        exact ih
      · have hfm : (off :: T).filterMap (jfa_sample input sx sy xi yi)
            = val :: T.filterMap (jfa_sample input sx sy xi yi) := by
          simp [List.filterMap_cons, hsamp]
        have hstep : jfa_best input sx sy xi yi (jfa_invalid_coord, none) off
            = (val, some (dist_sq ((val.x : ℤ), (val.y : ℤ)) (xi, yi))) := by
          simp [jfa_best, hsamp]
        constructor
        · intro hnil
          rw [hfm] at hnil
          exact absurd hnil (List.cons_ne_nil _ _)
        · intro _
          simp only [List.foldl_cons, hfm, hstep]
          obtain ⟨m1, m2, m3, m4⟩ := jfa_fold_some input sx sy xi yi T val
          refine ⟨?_, ?_⟩
          · rcases List.mem_cons.mp m1 with hh | hh
            · rw [hh]
              exact List.mem_cons_self _ _
            · exact List.mem_cons_of_mem _ hh
          · intro v hv
            rcases List.mem_cons.mp hv with hh | hh
            · rw [hh]
              exact m3
            · exact m4 v hh
theorem jfa_candidate_closest (input : ℕ → ℕ → JFACoord) (sx sy x y step : ℕ) :
    jfa_closest_spec input sx sy x y step
      (jfa_candidate input sx sy x y step) := by
  obtain ⟨hnil, hcons⟩ :=
    jfa_fold_none input sx sy (x : ℤ) (y : ℤ) (jfa_offsets (step : ℤ))
  by_cases h : jfa_valid_samples input sx sy x y step = []
  · left
    refine ⟨h, ?_⟩
    unfold jfa_candidate
    rw [hnil h]
  · right
    obtain ⟨m1, m2⟩ := hcons h
    exact ⟨m1, m2⟩
/-- C6 counterexample: at outline width 4 the code performs the pass
sequence `[1, 2, 1]` — an extra initial pass at step 1 before the halving
loop — while the claimed sequence (largest power of two ≤ half the width,
halving to 1) is `[2, 1]`, and the claimed total of
`ceil(log2(max_step)) + 1 = 2` passes does not match the three passes the
code performs. -/
theorem C6_step_sequence_counterexample :
    jfa_pass_steps 4 = [1, 2, 1]
    ∧ spec_jfa_steps 4 = [2, 1]
    ∧ jfa_pass_steps 4 ≠ spec_jfa_steps 4
    ∧ (jfa_pass_steps 4).length ≠ Nat.clog 2 2 + 1 := by
  have hpow : power_of_2_max_i 4 = 4 := rfl
  have h1 : jfa_pass_steps 4 = [1, 2, 1] := by
    simp [jfa_pass_steps, hpow, halving_steps]
  have hlog : Nat.log 2 2 = 1 :=
    Nat.log_eq_of_pow_le_of_lt_pow (by norm_num) (by norm_num)
  have h2 : spec_jfa_steps 4 = [2, 1] := by
    simp [spec_jfa_steps, spec_largest_pow2_le, hlog, halving_steps]
  have hclog : Nat.clog 2 2 = 1 := by
    simpa using Nat.clog_pow 2 1 (by norm_num)
  refine ⟨h1, h2, ?_, ?_⟩
  · rw [h1, h2]
    simp
  · rw [h1, hclog]
    simp
/-- C6 (amended): the jump-flooding pass sequence of `draw_text_outline`
consists of an initial pass at step 1 followed by a halving loop whose
first step is `power_of_2_max_i(width) / 2`, i.e. half the SMALLEST power
of two ≥ the outline width (not the largest power of two ≤ half the
width), for a total of `ceil(log2(width)) + 1` passes (one more than the
claimed `ceil(log2(max_step)) + 1`); each pass replaces every pixel
inside the processed ranges by a squared-Euclidean-closest valid
candidate among itself and the 8 neighbours at `±step` (other pixels keep
the previous output contents). -/
theorem C6_jfa_pass_structure (ow : ℕ) (how : 2 ≤ ow) :
    power_of_2_max_i ow = 2 ^ Nat.clog 2 ow
    ∧ ow ≤ 2 ^ Nat.clog 2 ow
    ∧ 2 ^ Nat.clog 2 ow < 2 * ow
    ∧ jfa_pass_steps ow = 1 :: halving_steps (2 ^ Nat.clog 2 ow / 2)
    ∧ (jfa_pass_steps ow).length = Nat.clog 2 ow + 1
    ∧ (∀ (input old : ℕ → ℕ → JFACoord) (sizex sizey : ℕ)
        (xr yr : ℕ × ℕ) (step x y : ℕ),
        (in_range xr x && in_range yr y) = true →
        jump_flooding_pass input old sizex sizey xr yr step x y
          = jfa_candidate input sizex sizey x y step
        ∧ jfa_closest_spec input sizex sizey x y step
            (jfa_candidate input sizex sizey x y step)) := by
  have hpow : power_of_2_max_i ow = 2 ^ Nat.clog 2 ow :=
    power_of_2_max_eq_clog ow (by omega)
  have hclog1 : 1 ≤ Nat.clog 2 ow := Nat.clog_pos (by norm_num) how
  have hle : ow ≤ 2 ^ Nat.clog 2 ow := Nat.le_pow_clog (by norm_num) ow
  have hlt : 2 ^ Nat.clog 2 ow < 2 * ow := by
    have hpred : 2 ^ (Nat.clog 2 ow - 1) < ow :=
      Nat.pow_pred_clog_lt_self (by norm_num) (by omega)
    have hsplit : 2 ^ Nat.clog 2 ow = 2 * 2 ^ (Nat.clog 2 ow - 1) := by
      conv_lhs => rw [show Nat.clog 2 ow = (Nat.clog 2 ow - 1) + 1 by omega]
      rw [Nat.pow_succ, Nat.mul_comm]
    omega
  have hdiv : 2 ^ Nat.clog 2 ow / 2 = 2 ^ (Nat.clog 2 ow - 1) := by
    conv_lhs => rw [show Nat.clog 2 ow = (Nat.clog 2 ow - 1) + 1 by omega]
    rw [Nat.pow_succ, Nat.mul_div_cancel _ (by norm_num)]
  have hlen : (jfa_pass_steps ow).length = Nat.clog 2 ow + 1 := by
    rw [jfa_pass_steps, hpow]
    simp only [List.length_cons, hdiv, halving_steps_two_pow_len]
    omega
  refine ⟨hpow, hle, hlt, ?_, hlen, ?_⟩
  · rw [jfa_pass_steps, hpow]
  · intro input old sizex sizey xr yr step x y hr
    refine ⟨?_, jfa_candidate_closest input sizex sizey x y step⟩
    simp [jump_flooding_pass, hr]
/-- Witness for `C6_jfa_pass_structure` at outline width 4. -/
theorem C6_jfa_pass_structure_witness :
    2 ≤ 4
    ∧ (power_of_2_max_i 4 = 2 ^ Nat.clog 2 4
      ∧ 4 ≤ 2 ^ Nat.clog 2 4
      ∧ 2 ^ Nat.clog 2 4 < 2 * 4
      ∧ jfa_pass_steps 4 = 1 :: halving_steps (2 ^ Nat.clog 2 4 / 2)
      ∧ (jfa_pass_steps 4).length = Nat.clog 2 4 + 1
      ∧ (∀ (input old : ℕ → ℕ → JFACoord) (sizex sizey : ℕ)
          (xr yr : ℕ × ℕ) (step x y : ℕ),
          (in_range xr x && in_range yr y) = true →
          jump_flooding_pass input old sizex sizey xr yr step x y
            = jfa_candidate input sizex sizey x y step
          ∧ jfa_closest_spec input sizex sizey x y step
              (jfa_candidate input sizex sizey x y step))) :=
  ⟨by norm_num, C6_jfa_pass_structure 4 (by norm_num)⟩
theorem jfa_sample_sound (input : ℕ → ℕ → JFACoord) (sx sy : ℕ)
    (xi yi : ℤ) (off : ℤ × ℤ) (val : JFACoord)
    (h : jfa_sample input sx sy xi yi off = some val) :
    ∃ a b, val = input a b := by
  unfold jfa_sample at h
  by_cases h1 : yi + off.1 < 0 ∨ (sy : ℤ) ≤ yi + off.1
  · simp [h1] at h
  · simp only [h1, if_false] at h
    by_cases h2 : xi + off.2 < 0 ∨ (sx : ℤ) ≤ xi + off.2
    · simp [h2] at h
    · simp only [h2, if_false] at h
      by_cases h3 :
          (input (xi + off.2).toNat (yi + off.1).toNat).x = JFA_INVALID
      · simp [h3] at h
      · simp only [h3, if_false, Option.some.injEq] at h
        exact ⟨(xi + off.2).toNat, (yi + off.1).toNat, h.symm⟩
theorem jfa_fold_pres (P : JFACoord → Prop) (input : ℕ → ℕ → JFACoord)
    (sx sy : ℕ) (xi yi : ℤ) (hin : ∀ a b, P (input a b)) :
    ∀ (L : List (ℤ × ℤ)) (acc : JFACoord × Option ℤ), P acc.1 →
      P ((L.foldl (jfa_best input sx sy xi yi) acc).1) := by
  intro L
  induction L with
  | nil => intro acc hacc; exact hacc
  | cons off T ih =>
      intro acc hacc
      rw [List.foldl_cons]
      apply ih
      rcases hsamp : jfa_sample input sx sy xi yi off with _ | val
      · simpa [jfa_best, hsamp] using hacc
      · obtain ⟨a, b, hval⟩ := jfa_sample_sound input sx sy xi yi off val hsamp
        have hPval : P val := hval ▸ hin a b
        rcases acc with ⟨c, dopt⟩
        cases dopt with
        | none => simpa [jfa_best, hsamp] using hPval
        | some m =>
            by_cases hlt : dist_sq ((val.x : ℤ), (val.y : ℤ)) (xi, yi) < m
            · simpa [jfa_best, hsamp, hlt] using hPval
            · simpa [jfa_best, hsamp, hlt] using hacc
theorem jfa_candidate_pres (P : JFACoord → Prop) (input : ℕ → ℕ → JFACoord)
    (sx sy x y step : ℕ) (hinv : P jfa_invalid_coord)
    (hin : ∀ a b, P (input a b)) :
    P (jfa_candidate input sx sy x y step) :=
  jfa_fold_pres P input sx sy (x : ℤ) (y : ℤ) hin (jfa_offsets (step : ℤ))
    (jfa_invalid_coord, none) hinv
theorem jfa_pass_pres (P : JFACoord → Prop) (input old : ℕ → ℕ → JFACoord)
    (sx sy : ℕ) (xr yr : ℕ × ℕ) (step : ℕ) (hinv : P jfa_invalid_coord)
    (hin : ∀ a b, P (input a b)) (hold : ∀ a b, P (old a b)) :
    ∀ x y, P (jump_flooding_pass input old sx sy xr yr step x y) := by
  intro x y
  unfold jump_flooding_pass
  by_cases hr : (in_range xr x && in_range yr y) = true
  · rw [if_pos hr]
    exact jfa_candidate_pres P input sx sy x y step hinv hin
  · rw [if_neg hr]
    exact hold x y
theorem jfa_loop_pres (P : JFACoord → Prop) (sx sy : ℕ) (xr yr : ℕ × ℕ)
    (hinv : P jfa_invalid_coord) :
    ∀ (steps : List ℕ) (cur spare : ℕ → ℕ → JFACoord),
      (∀ a b, P (cur a b)) → (∀ a b, P (spare a b)) →
      ∀ x y, P (jfa_loop sx sy xr yr steps cur spare x y) := by
  intro steps
  induction steps with
  | nil => intro cur spare hcur _ x y; exact hcur x y
  | cons s rest ih =>
      intro cur spare hcur hspare x y
      exact ih (jump_flooding_pass cur spare sx sy xr yr s) cur
        (jfa_pass_pres P cur spare sx sy xr yr s hinv hcur hspare) hcur x y
/-- C7 counterexample: a 5×5 region whose single opaque pixel is `(0, 0)`,
with outline width 1 (pass sequence `[1]`, i.e. only the initial step-1
pass and an empty halving loop): pixel `(3, 3)` of the processed rectangle
ends with the invalid sentinel, not with the candidate `(0, 0)` — the
flooding reach of the step sequence is smaller than the rectangle, so not
every other pixel receives `(x0, y0)`. -/
theorem C7_single_pixel_counterexample :
    jfa_pass_steps 1 = [1]
    ∧ (∀ x y : ℕ, ((x == 0 && y == 0) = true) ↔ (x = 0 ∧ y = 0))
    ∧ draw_text_outline_flood (fun x y => x == 0 && y == 0) 5 5
        (0, 5) (0, 5) [] 3 3 = jfa_invalid_coord
    ∧ jfa_invalid_coord ≠ (⟨0, 0⟩ : JFACoord)
    ∧ (in_range (0, 5) 3 && in_range (0, 5) 3) = true := by
  refine ⟨?_, ?_, by decide, by decide, by decide⟩
  · have hpow : power_of_2_max_i 1 = 1 := rfl
    simp [jfa_pass_steps, hpow, halving_steps]
  · intro x y
    simp
/-- C7 (amended): for an opacity mask with exactly one opaque pixel
`(x0, y0)`, after the initial pass and any sequence of flooding passes
every pixel holds either the candidate `(x0, y0)` or the invalid sentinel:
no pixel ever ends with a valid coordinate different from `(x0, y0)`
(pixels beyond the reach of the step sequence remain invalid, so not all
of them receive `(x0, y0)`). -/
theorem C7_single_pixel_flood (mask : ℕ → ℕ → Bool) (sizex sizey : ℕ)
    (xr yr : ℕ × ℕ) (loop_steps : List ℕ) (x0 y0 : ℕ)
    (hmask : ∀ x y, mask x y = true ↔ (x = x0 ∧ y = y0)) :
    ∀ x y,
      draw_text_outline_flood mask sizex sizey xr yr loop_steps x y
          = (⟨x0, y0⟩ : JFACoord)
      ∨ draw_text_outline_flood mask sizex sizey xr yr loop_steps x y
          = jfa_invalid_coord := by
  intro x y
  have hinv : (fun c : JFACoord =>
      c = (⟨x0, y0⟩ : JFACoord) ∨ c = jfa_invalid_coord) jfa_invalid_coord :=
    Or.inr rfl
  have hbound : ∀ a b,
      jfa_boundary_init mask a b = (⟨x0, y0⟩ : JFACoord)
      ∨ jfa_boundary_init mask a b = jfa_invalid_coord := by
    intro a b
    unfold jfa_boundary_init
    by_cases hm : mask a b = true
    · obtain ⟨ha, hb⟩ := (hmask a b).mp hm
      subst ha
      subst hb
      rw [if_pos hm]
      exact Or.inl rfl
    · rw [if_neg hm]
      exact Or.inr rfl
  have hall : ∀ a b,
      jfa_all_invalid a b = (⟨x0, y0⟩ : JFACoord)
      ∨ jfa_all_invalid a b = jfa_invalid_coord :=
    fun _ _ => Or.inr rfl
  have hfirst := jfa_pass_pres
    (fun c => c = (⟨x0, y0⟩ : JFACoord) ∨ c = jfa_invalid_coord)
    (jfa_boundary_init mask) jfa_all_invalid sizex sizey xr yr 1 hinv
    hbound hall
  exact jfa_loop_pres
    (fun c => c = (⟨x0, y0⟩ : JFACoord) ∨ c = jfa_invalid_coord)
    sizex sizey xr yr hinv loop_steps _ jfa_all_invalid hfirst hall x y
/-- Witness for `C7_single_pixel_flood`: a 3×3 region with the single
opaque pixel `(1, 1)`; additionally the corner pixel `(0, 0)` concretely
receives the candidate `(1, 1)` after the initial pass. -/
theorem C7_single_pixel_flood_witness :
    (∀ x y : ℕ, ((x == 1 && y == 1) = true) ↔ (x = 1 ∧ y = 1))
    ∧ (∀ x y,
        draw_text_outline_flood (fun x y => x == 1 && y == 1) 3 3
            (0, 3) (0, 3) [] x y = (⟨1, 1⟩ : JFACoord)
        ∨ draw_text_outline_flood (fun x y => x == 1 && y == 1) 3 3
            (0, 3) (0, 3) [] x y = jfa_invalid_coord)
    ∧ draw_text_outline_flood (fun x y => x == 1 && y == 1) 3 3
        (0, 3) (0, 3) [] 0 0 = (⟨1, 1⟩ : JFACoord) :=
  ⟨fun x y => by simp,
   C7_single_pixel_flood (fun x y => x == 1 && y == 1) 3 3 (0, 3) (0, 3)
     [] 1 1 (fun x y => by simp),
   by decide⟩
theorem blur_index_span_single (v : ℤ) : blur_index_span v v = [v] := by
  unfold blur_index_span
  rw [show v + 1 - v = 1 by ring]
  show [v + ((0 : ℕ) : ℤ)] = [v]
  norm_num
theorem c_int_nat_add_half (m : ℕ) : c_int ((m : ℚ) + 1 / 2) = m := by
  unfold c_int
  rw [if_pos (by positivity)]
  rw [Int.floor_nat_add]
  norm_num
theorem make_gaussian_blur_kernel_zero (f : ℚ → ℚ) (rad : ℚ)
    (hf : f 0 ≠ 0) : make_gaussian_blur_kernel f rad 0 = [1] := by
  unfold make_gaussian_blur_kernel
  have hr : List.range (2 * 0 + 1) = [0] := rfl
  simp only [hr, List.map_cons, List.map_nil, List.sum_cons, List.sum_nil,
    Nat.cast_zero, Nat.cast_ofNat]
  norm_num
  exact mul_inv_cancel₀ hf
theorem gaussian_blur_x_float_id (g : ℕ → ℚ) (width : ℕ)
    (img : ℤ → ℤ → PixFloat) (x y : ℤ) (hg : g 0 = 1)
    (hx0 : 0 ≤ x) (hx1 : x ≤ (width : ℤ) - 1) :
    gaussian_blur_x_float g 0 width img x y = img x y := by
  unfold gaussian_blur_x_float
  dsimp only
  rw [show x - ((0 : ℕ) : ℤ) = x by simp, show x + ((0 : ℕ) : ℤ) = x by simp,
    max_eq_left hx0, min_eq_left hx1, blur_index_span_single]
  simp only [List.map_cons, List.map_nil, List.sum_cons, List.sum_nil]
  rw [show x - x + ((0 : ℕ) : ℤ) = 0 by ring]
  simp [hg]
theorem gaussian_blur_y_float_id (g : ℕ → ℚ) (frame_height : ℕ)
    (img : ℤ → ℤ → PixFloat) (x y : ℤ) (hg : g 0 = 1)
    (hy0 : 0 ≤ y) (hy1 : y ≤ (frame_height : ℤ) - 1) :
    gaussian_blur_y_float g 0 frame_height img x y = img x y := by
  unfold gaussian_blur_y_float
  dsimp only
  rw [show y - ((0 : ℕ) : ℤ) = y by simp, show y + ((0 : ℕ) : ℤ) = y by simp,
    max_eq_left hy0, min_eq_left hy1, blur_index_span_single]
  simp only [List.map_cons, List.map_nil, List.sum_cons, List.sum_nil]
  rw [show y - y + ((0 : ℕ) : ℤ) = 0 by ring]
  simp [hg]
theorem gaussian_blur_x_byte_id (g : ℕ → ℚ) (width : ℕ)
    (img : ℤ → ℤ → PixByte) (x y : ℤ) (hg : g 0 = 1)
    (hx0 : 0 ≤ x) (hx1 : x ≤ (width : ℤ) - 1) :
    gaussian_blur_x_byte g 0 width img x y = img x y := by
  unfold gaussian_blur_x_byte
  dsimp only
  rw [show x - ((0 : ℕ) : ℤ) = x by simp, show x + ((0 : ℕ) : ℤ) = x by simp,
    max_eq_left hx0, min_eq_left hx1, blur_index_span_single]
  simp only [List.map_cons, List.map_nil, List.sum_cons, List.sum_nil]
  rw [show x - x + ((0 : ℕ) : ℤ) = 0 by ring]
  simp only [Int.toNat_zero, hg, one_mul, add_zero, div_one, one_div_one,
    mul_one]
  rw [c_int_nat_add_half, c_int_nat_add_half, c_int_nat_add_half,
    c_int_nat_add_half]
  rw [toByte_of_fin, toByte_of_fin, toByte_of_fin, toByte_of_fin]
theorem gaussian_blur_y_byte_id (g : ℕ → ℚ) (frame_height : ℕ)
    (img : ℤ → ℤ → PixByte) (x y : ℤ) (hg : g 0 = 1)
    (hy0 : 0 ≤ y) (hy1 : y ≤ (frame_height : ℤ) - 1) :
    gaussian_blur_y_byte g 0 frame_height img x y = img x y := by
  unfold gaussian_blur_y_byte
  dsimp only
  rw [show y - ((0 : ℕ) : ℤ) = y by simp, show y + ((0 : ℕ) : ℤ) = y by simp,
    max_eq_left hy0, min_eq_left hy1, blur_index_span_single]
  simp only [List.map_cons, List.map_nil, List.sum_cons, List.sum_nil]
  rw [show y - y + ((0 : ℕ) : ℤ) = 0 by ring]
  simp only [Int.toNat_zero, hg, one_mul, add_zero, div_one, one_div_one,
    mul_one]
  rw [c_int_nat_add_half, c_int_nat_add_half, c_int_nat_add_half,
    c_int_nat_add_half]
  rw [toByte_of_fin, toByte_of_fin, toByte_of_fin, toByte_of_fin]
/-- C8: one separable-blur pass with a one-element kernel (half size 0,
kernel value 1, as produced by `make_gaussian_blur_kernel` for radius → 0)
leaves every pixel of any input unchanged, on both the byte path (with
its `+0.5` biased store) and the float path, in both the horizontal and
the vertical pass. -/
theorem C8_one_element_kernel_identity (g : ℕ → ℚ) (f : ℚ → ℚ) (rad : ℚ)
    (width frame_height : ℕ) (imgf : ℤ → ℤ → PixFloat)
    (imgb : ℤ → ℤ → PixByte) (x y : ℤ)
    (hg : g 0 = 1) (hf : f 0 ≠ 0)
    (hx0 : 0 ≤ x) (hx1 : x ≤ (width : ℤ) - 1)
    (hy0 : 0 ≤ y) (hy1 : y ≤ (frame_height : ℤ) - 1) :
    make_gaussian_blur_kernel f rad 0 = [1]
    ∧ gaussian_blur_x_float g 0 width imgf x y = imgf x y
    ∧ gaussian_blur_y_float g 0 frame_height imgf x y = imgf x y
    ∧ gaussian_blur_x_byte g 0 width imgb x y = imgb x y
    ∧ gaussian_blur_y_byte g 0 frame_height imgb x y = imgb x y :=
  ⟨make_gaussian_blur_kernel_zero f rad hf,
   gaussian_blur_x_float_id g width imgf x y hg hx0 hx1,
   gaussian_blur_y_float_id g frame_height imgf x y hg hy0 hy1,
   gaussian_blur_x_byte_id g width imgb x y hg hx0 hx1,
   gaussian_blur_y_byte_id g frame_height imgb x y hg hy0 hy1⟩
/-- Witness for `C8_one_element_kernel_identity` at a concrete pixel of
concrete 4×4 images. -/
theorem C8_one_element_kernel_witness :
    ((fun _ : ℕ => (1 : ℚ)) 0 = 1 ∧ (fun _ : ℚ => (1 : ℚ)) 0 ≠ 0
      ∧ (0 : ℤ) ≤ 2 ∧ (2 : ℤ) ≤ (4 : ℕ) - 1 ∧ (0 : ℤ) ≤ 1
      ∧ (1 : ℤ) ≤ (4 : ℕ) - 1)
    ∧ (make_gaussian_blur_kernel (fun _ => 1) (1 / 2) 0 = [1]
      ∧ gaussian_blur_x_float (fun _ => 1) 0 4
          (fun _ _ => ⟨1 / 3, 0, 2 / 3, 1⟩) 2 1 = ⟨1 / 3, 0, 2 / 3, 1⟩
      ∧ gaussian_blur_y_float (fun _ => 1) 0 4
          (fun _ _ => ⟨1 / 3, 0, 2 / 3, 1⟩) 2 1 = ⟨1 / 3, 0, 2 / 3, 1⟩
      ∧ gaussian_blur_x_byte (fun _ => 1) 0 4
          (fun _ _ => ⟨7, 8, 9, 255⟩) 2 1 = ⟨7, 8, 9, 255⟩
      ∧ gaussian_blur_y_byte (fun _ => 1) 0 4
          (fun _ _ => ⟨7, 8, 9, 255⟩) 2 1 = ⟨7, 8, 9, 255⟩) :=
  ⟨⟨rfl, one_ne_zero, by norm_num, by norm_num, by norm_num, by norm_num⟩,
   C8_one_element_kernel_identity (fun _ => 1) (fun _ => 1) (1 / 2) 4 4
     (fun _ _ => ⟨1 / 3, 0, 2 / 3, 1⟩) (fun _ _ => ⟨7, 8, 9, 255⟩) 2 1
     rfl one_ne_zero (by norm_num) (by norm_num) (by norm_num) (by norm_num)⟩
theorem c_int_intCast (z : ℤ) : c_int ((z : ℚ)) = z := by
  unfold c_int
  by_cases h : (0 : ℚ) ≤ (z : ℚ)
  · rw [if_pos h, Int.floor_intCast]
  · rw [if_neg h, Int.ceil_intCast]
theorem first_pass_no_wrap (W : ℤ) :
    ∀ (rest : List CharInfo) (pos : ℚ × ℚ)
      (ls : Option (ℕ × (ℚ × ℚ) × ℤ)) (acc : List CharInfo),
      (∀ c ∈ rest, c.first_byte ≠ 10) →
      (∀ c ∈ rest, 0 ≤ c.advance_x) →
      pos.1 + ((rest.map fun c => (c.advance_x : ℚ)).sum) ≤ (W : ℚ) →
      (first_pass_go W rest pos ls acc).map char_strip
        = acc.map char_strip ++ rest.map char_strip := by
  intro rest
  induction rest with
  | nil =>
      intro pos ls acc _ _ _
      simp [first_pass_go]
  | cons c rest ih =>
      intro pos ls acc hnl hadv hsum
      have hc_nl : c.first_byte ≠ 10 := hnl c (List.mem_cons_self _ _)
      have hc_adv : 0 ≤ c.advance_x := hadv c (List.mem_cons_self _ _)
      have hsum_cons : pos.1 + (c.advance_x : ℚ)
          + ((rest.map fun c => (c.advance_x : ℚ)).sum) ≤ (W : ℚ) := by
        simp only [List.map_cons, List.sum_cons] at hsum
        linarith
      have hpos_le : pos.1 ≤ (W : ℚ) := by
        have hca : (0 : ℚ) ≤ (c.advance_x : ℚ) := by exact_mod_cast hc_adv
        have hrest_adv : 0 ≤ ((rest.map fun c => (c.advance_x : ℚ)).sum) := by
          apply List.sum_nonneg
          intro q hq
          obtain ⟨d, hd, hdq⟩ := List.mem_map.mp hq
          have := hadv d (List.mem_cons_of_mem _ hd)
          rw [← hdq]
          exact_mod_cast this
        linarith
      have hnotrig : ¬ (c.first_byte ≠ 0 ∧ (W : ℚ) < pos.1) := by
        intro hcon
        exact absurd hcon.2 (not_lt.mpr hpos_le)
      have hrec : ∀ (ls2 : Option (ℕ × (ℚ × ℚ) × ℤ)) (acc2 : List CharInfo),
          (first_pass_go W rest (pos.1 + (c.advance_x : ℚ), pos.2) ls2
              acc2).map char_strip
            = acc2.map char_strip ++ rest.map char_strip :=
        fun ls2 acc2 => ih (pos.1 + (c.advance_x : ℚ), pos.2) ls2 acc2
          (fun d hd => hnl d (List.mem_cons_of_mem _ hd))
          (fun d hd => hadv d (List.mem_cons_of_mem _ hd)) hsum_cons
      unfold first_pass_go
      dsimp only
      rw [if_neg hc_nl, if_neg hc_nl]
      by_cases hsp : c.first_byte = 32
      · rw [if_pos hsp, if_pos hsp]
        dsimp only
        rw [if_neg hnotrig, hrec (some (acc.length, pos, c.advance_x)) _]
        simp [char_strip, hsp, List.append_assoc]
      · rw [if_neg hsp, if_neg hsp]
        rcases ls with _ | ⟨i, lpos, ladv⟩
        · dsimp only
          rw [hrec none _]
          simp [List.append_assoc]
        · dsimp only
          rw [if_neg hnotrig, hrec (some (i, lpos, ladv)) _]
          simp [List.append_assoc]
theorem second_pass_no_wrap (lh : ℚ) :
    ∀ (rest : List CharInfo) (pos : ℚ × ℚ) (cs0 : List CharInfo) (w0 : ℤ),
      (∀ c ∈ rest, c.do_wrap = false) →
      (∀ c ∈ rest, c.first_byte ≠ 10) →
      ∃ cs1 : List CharInfo,
        second_pass_go lh rest pos [⟨cs0, w0⟩]
          = [⟨cs0 ++ cs1,
              if rest.isEmpty then w0
              else c_int (pos.1
                + ((rest.dropLast.map fun c => (c.advance_x : ℚ)).sum))⟩] := by
  intro rest
  induction rest with
  | nil =>
      intro pos cs0 w0 _ _
      exact ⟨[], by simp [second_pass_go]⟩
  | cons c rest ih =>
      intro pos cs0 w0 hw hnl
      have hc_w : c.do_wrap = false := hw c (List.mem_cons_self _ _)
      have hc_nl : c.first_byte ≠ 10 := hnl c (List.mem_cons_self _ _)
      have hcond : ¬ ((c.do_wrap = true) ∨ c.first_byte = 10) := by
        intro hcon
        rcases hcon with hcon | hcon
        · rw [hc_w] at hcon
          exact Bool.false_ne_true hcon
        · exact hc_nl hcon
      obtain ⟨cs1, hrec⟩ := ih (pos.1 + (c.advance_x : ℚ), pos.2)
        (cs0 ++ [{ c with position := pos }]) (c_int pos.1)
        (fun d hd => hw d (List.mem_cons_of_mem _ hd))
        (fun d hd => hnl d (List.mem_cons_of_mem _ hd))
      refine ⟨{ c with position := pos } :: cs1, ?_⟩
      unfold second_pass_go
      dsimp only
      rw [if_neg hcond]
      show second_pass_go lh rest (pos.1 + (c.advance_x : ℚ), pos.2)
        [⟨cs0 ++ [{ c with position := pos }], c_int pos.1⟩] = _
      rw [hrec]
      rcases rest with _ | ⟨d, rest2⟩
      · simp
      · simp only [List.isEmpty_cons, Bool.false_eq_true, if_false,
          List.dropLast_cons₂, List.map_cons, List.sum_cons,
          List.cons.injEq, LineInfo.mk.injEq, and_true]
        refine ⟨by simp, ?_⟩
        congr 1
        ring
/-- C9: with wrap width 0 (`wrap_width_get` returns `INT_MAX`) and a text
containing no newline characters (the character list as built by
`build_character_info`: the text's characters followed by the terminating
NUL entry, all with `do_wrap` false and non-negative advances, total
advance below `INT_MAX`), word wrapping produces exactly one line, no
character is marked for wrapping, and the line's width is the sum of the
per-character advance widths (all entries before the terminator). -/
theorem C9_wrap_width_zero_single_line (chars : List CharInfo)
    (line_height : ℚ) (image_size_x : ℤ)
    (h0 : chars ≠ [])
    (hnl : ∀ c ∈ chars, c.first_byte ≠ 10)
    (hw : ∀ c ∈ chars, c.do_wrap = false)
    (hadv : ∀ c ∈ chars, 0 ≤ c.advance_x)
    (hsum : ((chars.map fun c => (c.advance_x : ℚ)).sum)
        ≤ ((2147483647 : ℤ) : ℚ)) :
    wrap_width_get 0 image_size_x = 2147483647
    ∧ (∀ c ∈ first_pass_go 2147483647 chars (0, 0) none [],
        c.do_wrap = false)
    ∧ (apply_word_wrapping 2147483647 line_height chars).length = 1
    ∧ (apply_word_wrapping 2147483647 line_height chars).map LineInfo.width
      = [(chars.dropLast.map fun c => c.advance_x).sum] := by
  have hWg : wrap_width_get 0 image_size_x = 2147483647 := by
    simp [wrap_width_get]
  have hstrip : (first_pass_go 2147483647 chars (0, 0) none []).map char_strip
      = chars.map char_strip := by
    have h := first_pass_no_wrap 2147483647 chars (0, 0) none [] hnl hadv
      (by simpa using hsum)
    simpa using h
  have hfp_w : ∀ c ∈ first_pass_go 2147483647 chars (0, 0) none [],
      c.do_wrap = false := by
    intro c hc
    have h1 : char_strip c
        ∈ (first_pass_go 2147483647 chars (0, 0) none []).map char_strip :=
      List.mem_map_of_mem _ hc
    rw [hstrip] at h1
    obtain ⟨d, hd, hds⟩ := List.mem_map.mp h1
    have h2 : d.do_wrap = c.do_wrap := congrArg (fun t => t.2.2) hds
    rw [← h2]
    exact hw d hd
  have hfp_nl : ∀ c ∈ first_pass_go 2147483647 chars (0, 0) none [],
      c.first_byte ≠ 10 := by
    intro c hc
    have h1 : char_strip c
        ∈ (first_pass_go 2147483647 chars (0, 0) none []).map char_strip :=
      List.mem_map_of_mem _ hc
    rw [hstrip] at h1
    obtain ⟨d, hd, hds⟩ := List.mem_map.mp h1
    have h2 : d.first_byte = c.first_byte := congrArg (fun t => t.1) hds
    rw [← h2]
    exact hnl d hd
  have hadv_eq : (first_pass_go 2147483647 chars (0, 0) none []).map
      (fun c => c.advance_x) = chars.map (fun c => c.advance_x) := by
    have h1 : ((first_pass_go 2147483647 chars (0, 0) none []).map
        char_strip).map (fun t => t.2.1)
        = (chars.map char_strip).map (fun t => t.2.1) := by rw [hstrip]
    simpa [List.map_map, Function.comp, char_strip] using h1
  have hfp_ne : first_pass_go 2147483647 chars (0, 0) none [] ≠ [] := by
    intro hcon
    have h1 := congrArg List.length hstrip
    rw [hcon] at h1
    simp only [List.map_nil, List.length_nil, List.length_map] at h1
    exact h0 (List.length_eq_zero.mp h1.symm)
  obtain ⟨cs1, hsp⟩ := second_pass_no_wrap line_height
    (first_pass_go 2147483647 chars (0, 0) none []) (0, 0) [] 0 hfp_w hfp_nl
  have happ : apply_word_wrapping 2147483647 line_height chars
      = [⟨[] ++ cs1,
          if (first_pass_go 2147483647 chars (0, 0) none []).isEmpty then 0
          else c_int ((0 : ℚ)
            + (((first_pass_go 2147483647 chars (0, 0) none []).dropLast.map
                fun c => (c.advance_x : ℚ)).sum))⟩] := by
    unfold apply_word_wrapping
    exact hsp
  have hempty : (first_pass_go 2147483647 chars (0, 0) none []).isEmpty
      = false := by
    rcases hfe : first_pass_go 2147483647 chars (0, 0) none [] with _ | ⟨e, t⟩
    · exact absurd hfe hfp_ne
    · rfl
  have hqsum : (((first_pass_go 2147483647 chars (0, 0) none []).dropLast.map
      fun c => (c.advance_x : ℚ)).sum)
      = (((chars.dropLast.map fun c => c.advance_x).sum : ℤ) : ℚ) := by
    rw [show (fun c : CharInfo => (c.advance_x : ℚ))
        = (fun z : ℤ => (z : ℚ)) ∘ (fun c : CharInfo => c.advance_x) from rfl]
    rw [← List.map_map, List.map_dropLast, hadv_eq, ← List.map_dropLast,
      List.map_map]
    rw [Int.cast_list_sum, List.map_map]
  have hwidth : (if (first_pass_go 2147483647 chars (0, 0) none []).isEmpty
      then (0 : ℤ)
      else c_int ((0 : ℚ)
        + (((first_pass_go 2147483647 chars (0, 0) none []).dropLast.map
            fun c => (c.advance_x : ℚ)).sum)))
      = (chars.dropLast.map fun c => c.advance_x).sum := by
    rw [hempty]
    simp only [Bool.false_eq_true, if_false]
    rw [hqsum, zero_add, c_int_intCast]
  refine ⟨hWg, hfp_w, ?_, ?_⟩
  · rw [happ]
    rfl
  · rw [happ]
    simp only [List.map_cons, List.map_nil]
    congr 1
/-- Witness for `C9_wrap_width_zero_single_line`: the two-character text
"ab" (advances 10 and 12) followed by the terminating NUL entry. -/
theorem C9_wrap_width_zero_witness :
    (([⟨97, 10, false, (0, 0)⟩, ⟨98, 12, false, (0, 0)⟩,
        ⟨0, 0, false, (0, 0)⟩] : List CharInfo) ≠ []
      ∧ (∀ c ∈ ([⟨97, 10, false, (0, 0)⟩, ⟨98, 12, false, (0, 0)⟩,
          ⟨0, 0, false, (0, 0)⟩] : List CharInfo), c.first_byte ≠ 10)
      ∧ (∀ c ∈ ([⟨97, 10, false, (0, 0)⟩, ⟨98, 12, false, (0, 0)⟩,
          ⟨0, 0, false, (0, 0)⟩] : List CharInfo), c.do_wrap = false)
      ∧ (∀ c ∈ ([⟨97, 10, false, (0, 0)⟩, ⟨98, 12, false, (0, 0)⟩,
          ⟨0, 0, false, (0, 0)⟩] : List CharInfo), 0 ≤ c.advance_x)
      ∧ ((([⟨97, 10, false, (0, 0)⟩, ⟨98, 12, false, (0, 0)⟩,
          ⟨0, 0, false, (0, 0)⟩] : List CharInfo).map
            fun c => (c.advance_x : ℚ)).sum ≤ ((2147483647 : ℤ) : ℚ)))
    ∧ (wrap_width_get 0 100 = 2147483647
      ∧ (∀ c ∈ first_pass_go 2147483647
            [⟨97, 10, false, (0, 0)⟩, ⟨98, 12, false, (0, 0)⟩,
             ⟨0, 0, false, (0, 0)⟩] (0, 0) none [], c.do_wrap = false)
      ∧ (apply_word_wrapping 2147483647 7
          [⟨97, 10, false, (0, 0)⟩, ⟨98, 12, false, (0, 0)⟩,
           ⟨0, 0, false, (0, 0)⟩]).length = 1
      ∧ (apply_word_wrapping 2147483647 7
          [⟨97, 10, false, (0, 0)⟩, ⟨98, 12, false, (0, 0)⟩,
           ⟨0, 0, false, (0, 0)⟩]).map LineInfo.width
        = [(([⟨97, 10, false, (0, 0)⟩, ⟨98, 12, false, (0, 0)⟩,
            ⟨0, 0, false, (0, 0)⟩] : List CharInfo).dropLast.map
              fun c => c.advance_x).sum]) :=
  ⟨⟨List.cons_ne_nil _ _,
    by
      intro c hc
      simp only [List.mem_cons, List.not_mem_nil, or_false] at hc
      rcases hc with h | h | h <;> subst h <;> norm_num,
    by
      intro c hc
      simp only [List.mem_cons, List.not_mem_nil, or_false] at hc
      rcases hc with h | h | h <;> subst h <;> norm_num,
    by
      intro c hc
      simp only [List.mem_cons, List.not_mem_nil, or_false] at hc
      rcases hc with h | h | h <;> subst h <;> norm_num,
    by norm_num⟩,
   C9_wrap_width_zero_single_line _ 7 100 (List.cons_ne_nil _ _)
     (by
      intro c hc
      simp only [List.mem_cons, List.not_mem_nil, or_false] at hc
      rcases hc with h | h | h <;> subst h <;> norm_num)
     (by
      intro c hc
      simp only [List.mem_cons, List.not_mem_nil, or_false] at hc
      rcases hc with h | h | h <;> subst h <;> norm_num)
     (by
      intro c hc
      simp only [List.mem_cons, List.not_mem_nil, or_false] at hc
      rcases hc with h | h | h <;> subst h <;> norm_num)
     (by norm_num)⟩
